import Mathlib

set_option maxHeartbeats 1000000

/-!
Verification of the `bigqueue` persistent byte-message queue (src/src/lib.rs and
src/src/bigqueue.rs).  The memory-mapped arena files are modelled by a total
function `store : Nat → Nat → Nat` giving the byte at `(aid, offset)`; the
32-byte index file by `index : Nat → Nat`; the set of arena files present on
disk by `files : List Nat`; the LRU arena cache by its key list `cache` together
with its capacity `cache_cap` (the source constructs it as `LruCache::new(3)`).
The handles `q_head`/`q_tail` always map the arenas `head_aid`/`tail_aid`
(every source path that changes one changes the other), so reads through
`get_head_map`/`get_tail` are modelled as reads of `store head_aid`/`store
tail_aid`.  Rust panics (`expect`/`unwrap`) and divergence are modelled by
`none`; the looping read/write paths take explicit fuel, which is shown to be
sufficient under the preconditions the queue maintains.
-/

namespace BQ

/-- `Config` (src/lib.rs): arena size in bytes and the unused LRU knob
`max_arenas_in_mem` (a `u8` in the source). -/
structure Config where
  arena_size : Nat
  max_arenas_in_mem : Nat
deriving DecidableEq

/-- `Config::new()`: `DEFAULT_ARENA_SIZE = 128 * 1024 * 1024`,
`MIN_ARENAS_MAX_IN_MEM = 3`. -/
def Config.new : Config := ⟨128 * 1024 * 1024, 3⟩

/-- The `Error` enum of src/lib.rs; payloads are dropped, `IoErr` stands for
`Error::Io(_)`. -/
inductive Error where
  | Write | IsDir | CanWrite | Exist | QueueEmpty | OpenFileWithLength
  | ReadLength | Read | IoErr
deriving DecidableEq

/-- Little-endian byte `j` of `x` (`transform_u64_to_array_of_u8`; the source
value is a `u64`, so byte extraction below index 8 is exact). -/
def leByte (x j : Nat) : Nat := x / 2 ^ (8 * j) % 256

/-- Little-endian decoding of `k` bytes read through `m` starting at `off`
(`transform_array_of_u8_to_u64` is the case `k = 8`). -/
def decodeLE : Nat → (Nat → Nat) → Nat → Nat
  | 0, _, _ => 0
  | k + 1, m, off => m off + 256 * decodeLE k m (off + 1)

/-- `read_u64(mmap, offset)` over a region of length `mlen`. -/
def read_u64 (m : Nat → Nat) (mlen off : Nat) : Option Nat :=
  if off + 8 ≤ mlen then some (decodeLE 8 m off) else none

/-- `write_u64(mmap, offset, v)`: stores the 8 little-endian bytes of `v`,
failing (`Error::Write`) when the range is out of bounds. -/
def write_u64 (m : Nat → Nat) (mlen off v : Nat) : Option (Nat → Nat) :=
  if off + 8 ≤ mlen then
    some fun i => if off ≤ i ∧ i < off + 8 then leByte v (i - off) else m i
  else none

/-- `write_bytes(mmap, offset, v)` on a byte list. -/
def write_bytes_region (m : Nat → Nat) (mlen off : Nat) (v : List Nat) :
    Option (Nat → Nat) :=
  if off + v.length ≤ mlen then
    some fun i => if off ≤ i ∧ i < off + v.length then v.getD (i - off) 0 else m i
  else none

/-- `mmap.get(start..stop)`: `some` slice exactly when the range is valid. -/
def region_get (m : Nat → Nat) (mlen start stop : Nat) : Option (List Nat) :=
  if start ≤ stop ∧ stop ≤ mlen then
    some ((List.range (stop - start)).map fun k => m (start + k))
  else none

/-- `bytes.get(start..stop)` on a byte list. -/
def listSlice (l : List Nat) (start stop : Nat) : Option (List Nat) :=
  if start ≤ stop ∧ stop ≤ l.length then
    some ((l.drop start).take (stop - start))
  else none

/-- The queue state (struct `BigQueue` of src/lib.rs).  `store aid off` is the
byte at `off` of `arena_<aid>.dat`; `index i` is byte `i` of `index.dat`;
`files` lists the arena ids whose file exists on disk; `cache`/`cache_cap`
model the LRU cache (most recent first). -/
structure BigQueue where
  store : Nat → Nat → Nat
  index : Nat → Nat
  head_aid : Nat
  head_offset : Nat
  tail_aid : Nat
  tail_offset : Nat
  files : List Nat
  cache : List Nat
  cache_cap : Nat
  config : Config

/-- `BigQueue::is_empty`. -/
def isEmptyQ (q : BigQueue) : Bool :=
  q.head_aid == q.tail_aid && q.head_offset == q.tail_offset

/-- `LruCache::put(k, _)`: insert `k` most-recently-used, evict beyond the
capacity. -/
def cachePut (cap : Nat) (c : List Nat) (k : Nat) : List Nat :=
  (k :: c.erase k).take cap

/-- `Index::set_head` / `set_tail` write one `u64` window of `index.dat`
(`INDEX_FILE_SIZE = 32`, so windows 0..3 are always in bounds; the source
drops the `Result` anyway). -/
def set_indexWord (idx : Nat → Nat) (win v : Nat) : Nat → Nat :=
  fun i => if win * 8 ≤ i ∧ i < win * 8 + 8 then leByte v (i - win * 8) else idx i

/-- `BigQueue::set_head_index`. -/
def set_head_index (q : BigQueue) (aid offset : Nat) : BigQueue :=
  { q with index := set_indexWord (set_indexWord q.index 0 aid) 1 offset,
           head_aid := aid, head_offset := offset }

/-- `BigQueue::set_tail_index`. -/
def set_tail_index (q : BigQueue) (aid offset : Nat) : BigQueue :=
  { q with index := set_indexWord (set_indexWord q.index 2 aid) 3 offset,
           tail_aid := aid, tail_offset := offset }

/-- `BigQueue::flip_head_page_to`: a cache hit moves the arena into `q_head`;
otherwise `load_arena` requires the file to exist (`Error::Exist` if not).
(When the popped cache entry is still shared the source falls through to
`load_arena` as well; either way the mapped content is the file's content,
i.e. `store aid`.) -/
def flip_head_page_to (q : BigQueue) (aid : Nat) : Option BigQueue :=
  if q.cache.contains aid then
    some { q with cache := q.cache.erase aid, head_aid := aid }
  else if q.files.contains aid then
    some { q with head_aid := aid }
  else none

/-- `BigQueue::flip_tail_page_forward`: stash the current tail arena in the
cache, then `open_arena(tail_aid + 1)` (creating the file zero-filled when
absent — `Arena::new` opens with `create(true)` and `set_len`). -/
def flip_tail_page_forward (q : BigQueue) : BigQueue :=
  let old := q.tail_aid
  let c := cachePut q.cache_cap q.cache old
  let aid := old + 1
  { q with cache := c, tail_aid := aid,
           store := if q.files.contains aid then q.store
                    else Function.update q.store aid fun _ => 0,
           files := if q.files.contains aid then q.files else aid :: q.files }

/-- `BigQueue::write_length` (the result of the inner `write_u64_at` is
discarded by the source). -/
def write_length (q : BigQueue) (offset length : Nat) : Nat × BigQueue :=
  let asz := q.config.arena_size
  let p := if offset + 8 > asz then (0, flip_tail_page_forward q) else (offset, q)
  let i_offset := p.1
  let q1 := p.2
  let q2 := match write_u64 (q1.store q1.tail_aid) asz i_offset length with
    | some m => { q1 with store := Function.update q1.store q1.tail_aid m }
    | none => q1
  let i_offset2 := i_offset + 8
  if i_offset2 == asz then (0, flip_tail_page_forward q2) else (i_offset2, q2)

/-- The loop body of `BigQueue::write_bytes`, with explicit fuel.  `none`
models a panic (`bytes.get(..).unwrap()`, or the `Err(Write)` that `push`
turns into a panic via `expect`) or divergence. -/
def write_bytes_go (bytes : List Nat) :
    Nat → BigQueue → Nat → Nat → Nat → Option BigQueue
  | 0, _, _, _, _ => none
  | fuel + 1, q, i_offset, count, i_length =>
    let asz := q.config.arena_size
    let length := bytes.length
    if i_offset + i_length > asz then
      match listSlice bytes count (count + asz - i_offset) with
      | none => none
      | some write_in =>
        match write_bytes_region (q.store q.tail_aid) asz i_offset write_in with
        | none => none
        | some m =>
          let q1 := { q with store := Function.update q.store q.tail_aid m }
          let count2 := count + write_in.length
          let q2 := flip_tail_page_forward q1
          write_bytes_go bytes fuel q2 0 count2 (length - count2)
    else
      match listSlice bytes count length with
      | none => none
      | some write_in =>
        match write_bytes_region (q.store q.tail_aid) asz i_offset write_in with
        | none => none
        | some m =>
          let q1 := { q with store := Function.update q.store q.tail_aid m }
          if i_offset + i_length == asz then
            some { flip_tail_page_forward q1 with tail_offset := 0 }
          else
            some { q1 with tail_offset := i_offset + i_length }

/-- `BigQueue::write_bytes(offset, bytes)`. -/
def write_bytesQ (q : BigQueue) (offset : Nat) (bytes : List Nat) :
    Option BigQueue :=
  write_bytes_go bytes (bytes.length + 1) q offset 0 bytes.length

/-- `BigQueue::read_length`.  Both calls of `flip_head_page_to` discard the
`Result` in the source: on failure the read continues on the unchanged state. -/
def read_lengthQ (q : BigQueue) : Option Nat × BigQueue :=
  let asz := q.config.arena_size
  let t :=
    if q.head_offset + 8 > asz then
      match flip_head_page_to q (q.head_aid + 1) with
      | some q' => (0, 8, q')
      | none => (0, 8, q)
    else (q.head_offset, q.head_offset + 8, q)
  let offset := t.1
  let next_offset := t.2.1
  let q1 := t.2.2
  match read_u64 (q1.store q1.head_aid) asz offset with
  | some length =>
    if next_offset == asz then
      match flip_head_page_to q1 (q1.head_aid + 1) with
      | some q' => (some length, { q' with head_offset := 0 })
      | none => (some length, { q1 with head_offset := 0 })
    else (some length, { q1 with head_offset := next_offset })
  | none => (none, q1)

/-- The loop of `BigQueue::read_bytes`, with fuel.  Outer `none` models the
`expect` panic on a failed head flip (or divergence); `some (none, _)` is the
source's `None` return (a failed `mmap.get`). -/
def read_bytes_go :
    Nat → BigQueue → List Nat → Nat → Nat → Option (Option (List Nat) × BigQueue)
  | 0, _, _, _, _ => none
  | fuel + 1, q, acc, i_offset, i_length =>
    let asz := q.config.arena_size
    if i_offset + i_length > asz then
      match region_get (q.store q.head_aid) asz i_offset asz with
      | some slice =>
        match flip_head_page_to q (q.head_aid + 1) with
        | none => none
        | some q' => read_bytes_go fuel q' (acc ++ slice) 0 (i_length - slice.length)
      | none => some (none, q)
    else
      match region_get (q.store q.head_aid) asz i_offset (i_offset + i_length) with
      | some slice =>
        if i_offset + i_length == asz then
          match flip_head_page_to q (q.head_aid + 1) with
          | none => none
          | some q' => some (some (acc ++ slice), { q' with head_offset := 0 })
        else
          some (some (acc ++ slice), { q with head_offset := i_offset + i_length })
      | none => some (none, q)

/-- `BigQueue::read_bytes(length)`. -/
def read_bytesQ (q : BigQueue) (length : Nat) :
    Option (Option (List Nat) × BigQueue) :=
  read_bytes_go (length + 1) q [] q.head_offset length

/-- `BigQueue::pop`. -/
def popQ (q : BigQueue) : Option (Except Error (List Nat) × BigQueue) :=
  if isEmptyQ q then some (.error .QueueEmpty, q)
  else
    match read_lengthQ q with
    | (none, q1) => some (.error .ReadLength, q1)
    | (some length, q1) =>
      match read_bytesQ q1 length with
      | none => none
      | some (none, q2) => some (.error .Read, q2)
      | some (some data, q2) =>
        some (.ok data, set_head_index q2 q2.head_aid q2.head_offset)

/-- `BigQueue::peek`: snapshots `(old_aid, old_offset)` and the head handle,
reads a record, then restores the cursor via `change_head` without touching
the index. -/
def peekQ (q : BigQueue) : Option (Except Error (List Nat) × BigQueue) :=
  if isEmptyQ q then some (.error .QueueEmpty, q)
  else
    let old_aid := q.head_aid
    let old_offset := q.head_offset
    match read_lengthQ q with
    | (none, q1) => some (.error .ReadLength, q1)
    | (some length, q1) =>
      match read_bytesQ q1 length with
      | none => none
      | some (none, q2) => some (.error .Read, q2)
      | some (some data, q2) =>
        some (.ok data, { q2 with head_offset := old_offset, head_aid := old_aid })

/-- `BigQueue::push`.  `write_bytes` errors are turned into a panic by the
source's `expect`, hence `none`. -/
def pushQ (q : BigQueue) (bytes : List Nat) :
    Option (Except Error Unit × BigQueue) :=
  let length := bytes.length
  let p := write_length q q.tail_offset length
  match write_bytesQ p.2 p.1 bytes with
  | none => none
  | some q2 => some (.ok (), set_tail_index q2 q2.tail_aid q2.tail_offset)

/-- `BigQueue::dequeue`.  Note the single head flip: after reading the length
the source flips at most one page (`head_aid + 1`), whatever the payload
length. -/
def dequeueQ (q : BigQueue) : Option (Except Error Unit × BigQueue) :=
  if isEmptyQ q then some (.error .QueueEmpty, q)
  else
    match read_lengthQ q with
    | (some length, q1) =>
      let asz := q1.config.arena_size
      let head_aid := q1.head_aid
      let head_offset := q1.head_offset
      if head_offset + length ≥ asz then
        match flip_head_page_to q1 (head_aid + 1) with
        | none => none
        | some q2 =>
          some (.ok (), set_head_index q2 (head_aid + 1) ((head_offset + length - asz) % asz))
      else
        some (.ok (), set_head_index q1 head_aid ((head_offset + length) % asz))
    | (none, q1) => some (.error .ReadLength, q1)

/-- `BigQueue::with_config(dir, true, conf)`: reset deletes every `.dat` file,
`Index::new` re-creates a zero-filled `index.dat`, both cursor tuples read as
`(0, 0)`, and arena 0 is created zero-filled and shared as head and tail.
The LRU cache is built as `LruCache::new(3)` — the literal 3, not
`conf.max_arenas_in_mem`. -/
def with_config_reset (conf : Config) : BigQueue :=
  { store := fun _ _ => 0, index := fun _ => 0,
    head_aid := 0, head_offset := 0, tail_aid := 0, tail_offset := 0,
    files := [0], cache := [], cache_cap := 3, config := conf }

/-- Iterate `push` over a list of payloads (each push's `Ok` is required). -/
def pushAll (q : BigQueue) : List (List Nat) → Option BigQueue
  | [] => some q
  | p :: ps =>
    match pushQ q p with
    | some (.ok _, q') => pushAll q' ps
    | _ => none

/-- Iterate `pop` `n` times, collecting the returned payloads. -/
def popAll (q : BigQueue) : Nat → Option (List (List Nat) × BigQueue)
  | 0 => some ([], q)
  | n + 1 =>
    match popQ q with
    | some (.ok d, q') => (popAll q' n).map fun r => (d :: r.1, r.2)
    | _ => none

/-- Iterate `peek` `k` times, collecting the returned payloads. -/
def peekRepeat (q : BigQueue) : Nat → Option (List (List Nat))
  | 0 => some []
  | k + 1 =>
    match peekQ q with
    | some (.ok d, q') => (peekRepeat q' k).map (d :: ·)
    | _ => none

/-- A public operation of the direct API, for whole-run statements. -/
inductive Op where
  | push (bytes : List Nat)
  | pop
  | peek
  | dequeue

/-- The visible outcome of one public operation. -/
inductive OpOut where
  | bytes (bs : List Nat)
  | unit
  | err (e : Error)
deriving DecidableEq

/-- One public operation as a step: the visible outcome plus the next state;
`none` is a panic. -/
def stepOp (op : Op) (q : BigQueue) : Option (OpOut × BigQueue) :=
  match op with
  | .push bs =>
    match pushQ q bs with
    | some (.ok _, q') => some (.unit, q')
    | some (.error e, q') => some (.err e, q')
    | none => none
  | .pop =>
    match popQ q with
    | some (.ok d, q') => some (.bytes d, q')
    | some (.error e, q') => some (.err e, q')
    | none => none
  | .peek =>
    match peekQ q with
    | some (.ok d, q') => some (.bytes d, q')
    | some (.error e, q') => some (.err e, q')
    | none => none
  | .dequeue =>
    match dequeueQ q with
    | some (.ok _, q') => some (.unit, q')
    | some (.error e, q') => some (.err e, q')
    | none => none

/-- Run a list of operations, recording each outcome; stops with `none` on a
panic.  Error returns (e.g. `QueueEmpty`) leave the state and continue. -/
def runTrace (q : BigQueue) : List Op → Option (List OpOut × BigQueue)
  | [] => some ([], q)
  | op :: ops =>
    match stepOp op q with
    | none => none
    | some (o, q') => (runTrace q' ops).map fun r => (o :: r.1, r.2)

/-! ### Shrink: directory-entry parsing (`BigQueue::shrink`)

`shrink` stringifies each directory entry's **full path**, keeps those ending
in `.dat`, splits the whole path on `'_'`, requires exactly two parts, splits
the second part on `'.'` and parses its first piece as the arena number.
Paths are modelled as `List Char`. -/

/-- Rust `str::split(sep)` for a one-character separator (always returns at
least one piece). -/
def splitOnChar (sep : Char) : List Char → List (List Char)
  | [] => [[]]
  | c :: rest =>
    let r := splitOnChar sep rest
    if c = sep then [] :: r else (c :: r.headI) :: r.tail

/-- The suffix `".dat"`. -/
def dotDat : List Char := ['.', 'd', 'a', 't']

/-- Rust `str::parse::<usize>()`: an optional leading `'+'`, then at least one
ascii digit, and the value must fit in the 64-bit `usize`
(`Err(PosOverflow)` for `2 ^ 64` or more, which `shrink`'s `.unwrap()` turns
into a panic). -/
def parse_usize (l : List Char) : Option Nat :=
  let digits := match l with
    | '+' :: rest => rest
    | _ => l
  if digits ≠ [] ∧ digits.all (·.isDigit) then
    let v := digits.foldl (fun acc c => acc * 10 + (c.toNat - 48)) 0
    if v < 2 ^ 64 then some v else none
  else none

/-- One iteration of the `shrink` loop on the entry with full path `path`:
`some true` = the file is deleted, `some false` = it is kept, `none` = the
`parse::<usize>().unwrap()` panics. -/
def shrinkEntry (haid taid : Nat) (path : List Char) : Option Bool :=
  if dotDat.isSuffixOf path then
    let part := splitOnChar '_' path
    if part.length = 2 then
      let part2 := splitOnChar '.' (part.getD 1 [])
      match parse_usize (part2.getD 0 []) with
      | some n =>
        some (decide ((taid ≥ haid ∧ n < haid) ∨ (taid < haid ∧ (n > taid ∧ n < haid))))
      | none => none
    else some false
  else some false

/-- `BigQueue::shrink` over the list of full paths of the directory's entries:
returns the surviving entries (`none` on a parse panic).  `Drop for BigQueue`
clears the cache and runs exactly this. -/
def shrinkFiles (haid taid : Nat) : List (List Char) → Option (List (List Char))
  | [] => some []
  | p :: ps =>
    match shrinkEntry haid taid p with
    | none => none
    | some true => shrinkFiles haid taid ps
    | some false => (shrinkFiles haid taid ps).map (p :: ·)

/-! ### Specification-side geometry of records

Positions are pairs `(aid, offset)`; `flat` linearises them.  These functions
describe where `write_length`/`write_bytes` put a record and where
`read_length`/`read_bytes` leave the head cursor, and are proved below to
match the operational definitions. -/

/-- Linearised position of `(aid, off)` in the infinite sequence of arenas. -/
def flat (asz aid off : Nat) : Nat := aid * asz + off

/-- Where the 8 length bytes of a record starting at `p` actually live
(never split: a straddling length word moves whole to the next arena). -/
def lenPos (asz : Nat) (p : Nat × Nat) : Nat × Nat :=
  if p.2 + 8 > asz then (p.1 + 1, 0) else p

/-- Cursor position just after the 8 length bytes (valid for `asz > 8`). -/
def afterLen (asz : Nat) (p : Nat × Nat) : Nat × Nat :=
  if p.2 + 8 > asz then (p.1 + 1, 8)
  else if p.2 + 8 = asz then (p.1 + 1, 0)
  else (p.1, p.2 + 8)

/-- Cursor position after skipping `L` payload bytes from `p` (the payload is
laid out contiguously in `flat` coordinates, and a payload ending exactly at
an arena boundary leaves the cursor at offset 0 of the next arena). -/
def afterPayload (asz : Nat) (p : Nat × Nat) (L : Nat) : Nat × Nat :=
  (p.1 + (p.2 + L) / asz, (p.2 + L) % asz)

/-- Cursor position after a whole record (length word + `L` payload bytes). -/
def afterRecord (asz : Nat) (p : Nat × Nat) (L : Nat) : Nat × Nat :=
  afterPayload asz (afterLen asz p) L

/-- The byte of `store` at linear position `f`. -/
def flatStore (store : Nat → Nat → Nat) (asz f : Nat) : Nat :=
  store (f / asz) (f % asz)

/-- The length field decoded at the record starting at `p`. -/
def recLen (store : Nat → Nat → Nat) (asz : Nat) (p : Nat × Nat) : Nat :=
  decodeLE 8 (store (lenPos asz p).1) (lenPos asz p).2

/-- A record with payload `pl` is laid out at position `p` of `store`. -/
def recordAt (store : Nat → Nat → Nat) (asz : Nat) (p : Nat × Nat)
    (pl : List Nat) : Prop :=
  recLen store asz p = pl.length ∧
  ∀ i, i < pl.length →
    flatStore store asz (flat asz (afterLen asz p).1 (afterLen asz p).2 + i) = pl.getD i 0

/-- The records of payloads `ps` are laid out back to back from `p` to `t`. -/
def chain (store : Nat → Nat → Nat) (asz : Nat) :
    Nat × Nat → List (List Nat) → Nat × Nat → Prop
  | p, [], t => p = t
  | p, pl :: ps, t =>
    pl.length < 2 ^ 64 ∧ recordAt store asz p pl ∧
      chain store asz (afterRecord asz p pl.length) ps t

/-- The reachable-state invariant used for the functional claims: a wellformed
queue currently holding the payloads `ps`. -/
def validQ (q : BigQueue) (ps : List (List Nat)) : Prop :=
  8 < q.config.arena_size ∧
  q.head_offset < q.config.arena_size ∧
  q.tail_offset < q.config.arena_size ∧
  (∀ a, a ≤ q.tail_aid → q.files.contains a) ∧
  chain q.store q.config.arena_size (q.head_aid, q.head_offset) ps
    (q.tail_aid, q.tail_offset)

/-- The bytes a successful `read_bytes` of `L` bytes from linear position `f0`
returns. -/
def readList (store : Nat → Nat → Nat) (asz f0 L : Nat) : List Nat :=
  (List.range L).map fun i => flatStore store asz (f0 + i)

/-- Byte layout of `index.dat` dictated by the four cursor words. -/
def encodeIdx (ha ho ta to2 : Nat) (i : Nat) : Nat :=
  if i < 8 then leByte ha i
  else if i < 16 then leByte ho (i - 8)
  else if i < 24 then leByte ta (i - 16)
  else leByte to2 (i - 24)

/-- The index file mirrors the in-memory cursors (bytes 0..32). -/
def indexOK (q : BigQueue) : Prop :=
  ∀ i, i < 32 →
    q.index i = encodeIdx q.head_aid q.head_offset q.tail_aid q.tail_offset i

/-- Whether a `Result` is `Ok`. -/
def exceptOk {α : Type} : Except Error α → Bool
  | .ok _ => true
  | .error _ => false

/-- The arena number `shrink` parses out of a full path: split the path on
`'_'`, take piece 1, split that on `'.'`, parse piece 0 as a number. -/
def arenaNo (p : List Char) : Option Nat :=
  parse_usize ((splitOnChar '.' ((splitOnChar '_' p).getD 1 [])).getD 0 [])

/-- A queue whose only record is the payload `[5, 6, 7]` (length word at
arena 0 offset 0, payload at bytes 8..11), arena size 16. -/
def qC4 : BigQueue :=
  { store := fun a i =>
      if a = 0 then
        if i = 0 then 3 else if i = 8 then 5 else if i = 9 then 6 else if i = 10 then 7 else 0
      else 0,
    index := fun _ => 0,
    head_aid := 0, head_offset := 0, tail_aid := 0, tail_offset := 11,
    files := [0], cache := [], cache_cap := 3, config := ⟨16, 3⟩ }

/-- A fresh queue with arena size 16 whose tail offset is 12, so that
`arena_size - tail_offset = 4 < 8`. -/
def qC3 : BigQueue :=
  { store := fun _ _ => 0, index := fun _ => 0,
    head_aid := 0, head_offset := 0, tail_aid := 0, tail_offset := 12,
    files := [0], cache := [], cache_cap := 3, config := ⟨16, 3⟩ }

/-- A queue state whose head must flip to arena 1, with `arena_1.dat` neither
on disk (`files = [0]`) nor cached. -/
def s9 : BigQueue :=
  { store := fun _ _ => 0, index := fun _ => 0,
    head_aid := 0, head_offset := 10, tail_aid := 2, tail_offset := 0,
    files := [0], cache := [], cache_cap := 3, config := ⟨16, 3⟩ }

/-- A directory listing (full paths, no `'_'` in the directory part): two
arena files and the index file. -/
def psC8 : List (List Char) :=
  [String.toList "/tmp/q/arena_0.dat", String.toList "/tmp/q/arena_3.dat",
   String.toList "/tmp/q/index.dat"]

/-- Replace the (unused) `max_arenas_in_mem` field. -/
def setMam (q : BigQueue) (m : Nat) : BigQueue :=
  { q with config := ⟨q.config.arena_size, m⟩ }

/-- Two states that agree everywhere except possibly in the dead
`max_arenas_in_mem` field. -/
def mamEq (x y : BigQueue) : Prop :=
  x.store = y.store ∧ x.index = y.index ∧ x.head_aid = y.head_aid ∧
  x.head_offset = y.head_offset ∧ x.tail_aid = y.tail_aid ∧ x.tail_offset = y.tail_offset ∧
  x.files = y.files ∧ x.cache = y.cache ∧ x.cache_cap = y.cache_cap ∧
  x.config.arena_size = y.config.arena_size

/-- `mamEq` lifted to `Option`. -/
def mamEqO : Option BigQueue → Option BigQueue → Prop
  | none, none => True
  | some a, some b => mamEq a b
  | _, _ => False

/-- `mamEq` lifted to the result type of `read_bytes_go`. -/
def mamEqR : Option (Option (List Nat) × BigQueue) → Option (Option (List Nat) × BigQueue) → Prop
  | none, none => True
  | some a, some b => a.1 = b.1 ∧ mamEq a.2 b.2
  | _, _ => False

/-- `mamEq` lifted to a public-operation result. -/
def mamEqP {α : Type} : Option (Except Error α × BigQueue) → Option (Except Error α × BigQueue) → Prop
  | none, none => True
  | some a, some b => a.1 = b.1 ∧ mamEq a.2 b.2
  | _, _ => False

/-- `mamEq` lifted to a `stepOp` result. -/
def mamEqS : Option (OpOut × BigQueue) → Option (OpOut × BigQueue) → Prop
  | none, none => True
  | some a, some b => a.1 = b.1 ∧ mamEq a.2 b.2
  | _, _ => False

/-- `mamEq` lifted to a `runTrace` result. -/
def mamEqT : Option (List OpOut × BigQueue) → Option (List OpOut × BigQueue) → Prop
  | none, none => True
  | some a, some b => a.1 = b.1 ∧ mamEq a.2 b.2
  | _, _ => False

/-! ### Byte-codec lemmas -/

theorem leByte_lt (x j : Nat) : leByte x j < 256 := Nat.mod_lt _ (by norm_num)

theorem leByte_shift (x j : Nat) : leByte x (j + 1) = leByte (x / 256) j := by
  simp only [leByte, Nat.div_div_eq_div_mul, pow_succ, Nat.mul_add, pow_add]
  ring_nf

theorem decodeLE_of_bytes (k : Nat) :
    ∀ (v off : Nat) (m : Nat → Nat), (∀ j, j < k → m (off + j) = leByte v j) →
      decodeLE k m off = v % 256 ^ k := by
  induction k with
  | zero => intro v off m _; simp [decodeLE, Nat.mod_one]
  | succ k ih =>
    intro v off m hm
    have h0 : m off = v % 256 := by
      have := hm 0 (Nat.succ_pos k); simpa [leByte] using this
    have hrec : decodeLE k m (off + 1) = (v / 256) % 256 ^ k := by
      refine ih (v / 256) (off + 1) m ?_
      intro j hj
      have h1 := hm (j + 1) (by omega)
      rw [← leByte_shift]
      rw [← h1]; ring_nf
    have h2 : (256 : Nat) ^ (k + 1) = 256 * 256 ^ k := by ring
    rw [decodeLE, h0, hrec, h2, Nat.mod_mul]

/-! ### Flat-position lemmas -/

theorem flat_div (asz a o : Nat) (h : 0 < asz) : flat asz a o / asz = a + o / asz := by
  simp [flat, Nat.mul_comm a asz, Nat.mul_add_div h]

theorem flat_mod (asz a o : Nat) : flat asz a o % asz = o % asz := by
  simp [flat, Nat.mul_comm a asz, Nat.mul_add_mod]

theorem flatStore_eq (st : Nat → Nat → Nat) (asz a o : Nat) (h : o < asz) :
    flatStore st asz (flat asz a o) = st a o := by
  have h0 : 0 < asz := by omega
  unfold flatStore
  rw [flat_div asz a o h0, flat_mod asz a o, Nat.div_eq_of_lt h, Nat.mod_eq_of_lt h]
  simp

theorem flat_afterPayload (asz : Nat) (p : Nat × Nat) (L : Nat) (h : 0 < asz) :
    flat asz (afterPayload asz p L).1 (afterPayload asz p L).2 =
      flat asz p.1 p.2 + L := by
  simp only [afterPayload, flat]
  rw [Nat.add_mul]
  have h2 := Nat.div_add_mod (p.2 + L) asz
  rw [Nat.mul_comm] at h2
  linarith

theorem afterPayload_snd_lt (asz : Nat) (p : Nat × Nat) (L : Nat) (h : 0 < asz) :
    (afterPayload asz p L).2 < asz := by
  simp only [afterPayload]; exact Nat.mod_lt _ h

theorem flat_afterLen_ge (asz : Nat) (p : Nat × Nat) (hp : p.2 < asz) :
    flat asz p.1 p.2 + 8 ≤ flat asz (afterLen asz p).1 (afterLen asz p).2 := by
  unfold afterLen flat
  by_cases h1 : p.2 + 8 > asz
  · simp only [if_pos h1, Nat.succ_mul]; omega
  · by_cases h2 : p.2 + 8 = asz
    · simp only [if_neg h1, if_pos h2, Nat.succ_mul]; omega
    · simp only [if_neg h1, if_neg h2]; omega

theorem afterLen_snd_lt (asz : Nat) (p : Nat × Nat) (h8 : 8 < asz) (hp : p.2 < asz) :
    (afterLen asz p).2 < asz := by
  unfold afterLen
  by_cases h1 : p.2 + 8 > asz
  · simp only [if_pos h1]; omega
  · by_cases h2 : p.2 + 8 = asz
    · simp only [if_neg h1, if_pos h2]; omega
    · simp only [if_neg h1, if_neg h2]; omega

theorem flat_afterRecord (asz : Nat) (p : Nat × Nat) (L : Nat) (h : 0 < asz) :
    flat asz (afterRecord asz p L).1 (afterRecord asz p L).2 =
      flat asz (afterLen asz p).1 (afterLen asz p).2 + L := by
  unfold afterRecord; exact flat_afterPayload _ _ _ h

theorem afterRecord_snd_lt (asz : Nat) (p : Nat × Nat) (L : Nat) (h : 0 < asz) :
    (afterRecord asz p L).2 < asz := afterPayload_snd_lt _ _ _ h

theorem flat_afterRecord_ge (asz : Nat) (p : Nat × Nat) (L : Nat) (hp : p.2 < asz) :
    flat asz p.1 p.2 + 8 ≤ flat asz (afterRecord asz p L).1 (afterRecord asz p L).2 := by
  rw [flat_afterRecord _ _ _ (by omega)]
  have := flat_afterLen_ge asz p hp
  omega

/-- The 8 length bytes live in one arena: `lenPos.2 + 8 ≤ asz`. -/
theorem lenPos_snd_le (asz : Nat) (p : Nat × Nat) (h8 : 8 < asz) (hp : p.2 < asz) :
    (lenPos asz p).2 + 8 ≤ asz := by
  unfold lenPos
  by_cases h1 : p.2 + 8 > asz
  · simp only [if_pos h1]; omega
  · simp only [if_neg h1]; omega

/-- The length bytes sit just below `afterLen` in flat coordinates. -/
theorem flat_lenPos_add (asz : Nat) (p : Nat × Nat) (j : Nat) (hp : p.2 < asz)
    (hj : j < 8) :
    flat asz (lenPos asz p).1 ((lenPos asz p).2 + j) + (8 - j) =
      flat asz (afterLen asz p).1 (afterLen asz p).2 := by
  unfold lenPos afterLen flat
  by_cases h1 : p.2 + 8 > asz
  · simp only [if_pos h1, Nat.succ_mul]; omega
  · by_cases h2 : p.2 + 8 = asz
    · simp only [if_neg h1, if_pos h2, Nat.succ_mul]; omega
    · simp only [if_neg h1, if_neg h2]; omega



/-! ### Record and chain lemmas -/

theorem decodeLE_congr (k : Nat) :
    ∀ (off : Nat) (m m' : Nat → Nat), (∀ j, j < k → m (off + j) = m' (off + j)) →
      decodeLE k m off = decodeLE k m' off := by
  induction k with
  | zero => intro off m m' _; simp [decodeLE]
  | succ k ih =>
    intro off m m' hm
    have h0 : m off = m' off := by simpa using hm 0 (Nat.succ_pos k)
    have h1 : decodeLE k m (off + 1) = decodeLE k m' (off + 1) :=
      ih (off + 1) m m' fun j hj => by
        have := hm (j + 1) (by omega)
        have e : off + (j + 1) = off + 1 + j := by omega
        rwa [e] at this
    simp only [decodeLE, h1]
    omega

theorem recordAt_congr (st st' : Nat → Nat → Nat) (asz : Nat) (p : Nat × Nat)
    (pl : List Nat) (h8 : 8 < asz) (hp : p.2 < asz)
    (hagree : ∀ f,
      f < flat asz (afterRecord asz p pl.length).1 (afterRecord asz p pl.length).2 →
      flatStore st' asz f = flatStore st asz f)
    (h : recordAt st asz p pl) : recordAt st' asz p pl := by
  obtain ⟨hlen, hpay⟩ := h
  have hrec := flat_afterRecord asz p pl.length (by omega)
  constructor
  · unfold recLen at hlen ⊢
    rw [decodeLE_congr 8 (lenPos asz p).2 (st' (lenPos asz p).1) (st (lenPos asz p).1) ?_]
    · exact hlen
    · intro j hj
      have hle := lenPos_snd_le asz p h8 hp
      have hlt : (lenPos asz p).2 + j < asz := by omega
      have hfl := flat_lenPos_add asz p j hp hj
      rw [← flatStore_eq st' asz (lenPos asz p).1 ((lenPos asz p).2 + j) hlt,
          ← flatStore_eq st asz (lenPos asz p).1 ((lenPos asz p).2 + j) hlt]
      exact hagree _ (by omega)
  · intro i hi
    rw [hagree _ (by omega)]
    exact hpay i hi

theorem chain_flat_le (st : Nat → Nat → Nat) (asz : Nat) :
    ∀ (ps : List (List Nat)) (p t : Nat × Nat), 8 < asz → p.2 < asz →
      chain st asz p ps t → flat asz p.1 p.2 ≤ flat asz t.1 t.2 := by
  intro ps
  induction ps with
  | nil => intro p t _ _ h; cases h; exact le_refl _
  | cons pl ps ih =>
    intro p t h8 hp h
    obtain ⟨_, _, hch⟩ := h
    have h1 := flat_afterRecord_ge asz p pl.length hp
    have h2 := ih (afterRecord asz p pl.length) t h8
      (afterRecord_snd_lt asz p pl.length (by omega)) hch
    omega

theorem chain_frame (st st' : Nat → Nat → Nat) (asz : Nat) :
    ∀ (ps : List (List Nat)) (p t : Nat × Nat), 8 < asz → p.2 < asz →
      chain st asz p ps t →
      (∀ f, f < flat asz t.1 t.2 → flatStore st' asz f = flatStore st asz f) →
      chain st' asz p ps t := by
  intro ps
  induction ps with
  | nil => intro p t _ _ h _; exact h
  | cons pl ps ih =>
    intro p t h8 hp h hagree
    obtain ⟨hl, hr, hch⟩ := h
    have hle : flat asz (afterRecord asz p pl.length).1 (afterRecord asz p pl.length).2 ≤
        flat asz t.1 t.2 :=
      chain_flat_le st asz ps _ t h8 (afterRecord_snd_lt asz p pl.length (by omega)) hch
    refine ⟨hl, ?_, ?_⟩
    · exact recordAt_congr st st' asz p pl h8 hp (fun f hf => hagree f (by omega)) hr
    · exact ih (afterRecord asz p pl.length) t h8
        (afterRecord_snd_lt asz p pl.length (by omega)) hch hagree

theorem chain_append (st : Nat → Nat → Nat) (asz : Nat) :
    ∀ (ps : List (List Nat)) (p t : Nat × Nat) (pl : List Nat),
      chain st asz p ps t → pl.length < 2 ^ 64 → recordAt st asz t pl →
      chain st asz p (ps ++ [pl]) (afterRecord asz t pl.length) := by
  intro ps
  induction ps with
  | nil =>
    intro p t pl hch hlen hrec
    cases hch
    exact ⟨hlen, hrec, rfl⟩
  | cons pl0 ps ih =>
    intro p t pl hch hlen hrec
    obtain ⟨h1, h2, h3⟩ := hch
    exact ⟨h1, h2, ih _ t pl h3 hlen hrec⟩

/-- A queue holding at least one record is not empty. -/
theorem isEmptyQ_false_of_cons (q : BigQueue) (pl : List Nat) (ps : List (List Nat))
    (hv : validQ q (pl :: ps)) : isEmptyQ q = false := by
  obtain ⟨h8, hh, ht, _, hch⟩ := hv
  obtain ⟨_, _, hch2⟩ := hch
  have h1 := flat_afterRecord_ge q.config.arena_size (q.head_aid, q.head_offset) pl.length hh
  have h2 := chain_flat_le q.store q.config.arena_size ps _ _ h8
    (afterRecord_snd_lt _ _ _ (by omega)) hch2
  dsimp only at h1 h2
  have hne : flat q.config.arena_size q.head_aid q.head_offset <
      flat q.config.arena_size q.tail_aid q.tail_offset := by omega
  simp only [isEmptyQ, Bool.and_eq_false_iff, beq_eq_false_iff_ne, ne_eq]
  by_cases ha : q.head_aid = q.tail_aid
  · right
    intro ho
    rw [ha, ho] at hne
    exact lt_irrefl _ hne
  · left; exact ha


/-! ### Helper evaluation lemmas -/

theorem write_u64_pos (m : Nat → Nat) (mlen off v : Nat) (h : off + 8 ≤ mlen) :
    write_u64 m mlen off v =
      some fun i => if off ≤ i ∧ i < off + 8 then leByte v (i - off) else m i := by
  simp [write_u64, h]

theorem write_bytes_region_pos (m : Nat → Nat) (mlen off : Nat) (v : List Nat)
    (h : off + v.length ≤ mlen) :
    write_bytes_region m mlen off v =
      some fun i => if off ≤ i ∧ i < off + v.length then v.getD (i - off) 0 else m i := by
  simp [write_bytes_region, h]

theorem region_get_pos (m : Nat → Nat) (mlen start stop : Nat) (h1 : start ≤ stop)
    (h2 : stop ≤ mlen) :
    region_get m mlen start stop =
      some ((List.range (stop - start)).map fun k => m (start + k)) := by
  simp [region_get, h1, h2]

theorem listSlice_pos (l : List Nat) (start stop : Nat) (h1 : start ≤ stop)
    (h2 : stop ≤ l.length) :
    listSlice l start stop = some ((l.drop start).take (stop - start)) := by
  simp [listSlice, h1, h2]

theorem listSlice_piece_length (l : List Nat) (start stop : Nat) (h1 : start ≤ stop)
    (h2 : stop ≤ l.length) :
    ((l.drop start).take (stop - start)).length = stop - start := by
  simp [List.length_take, List.length_drop]
  omega

theorem listSlice_piece_getD (l : List Nat) (start stop k : Nat) (h1 : start ≤ stop)
    (h2 : stop ≤ l.length) (hk : k < stop - start) :
    ((l.drop start).take (stop - start)).getD k 0 = l.getD (start + k) 0 := by
  have hlen := listSlice_piece_length l start stop h1 h2
  have hk2 : start + k < l.length := by omega
  rw [List.getD_eq_getElem _ _ (by omega), List.getD_eq_getElem _ _ hk2]
  rw [List.getElem_take, List.getElem_drop]

/-! ### Arena-arithmetic helpers -/

theorem div_le_of_flat_lt (asz a o f : Nat) (h0 : 0 < asz) (ho : o < asz)
    (h : f < flat asz a o) : f / asz ≤ a := by
  by_contra hlt
  push_neg at hlt
  have h1 : (a + 1) * asz ≤ f / asz * asz := Nat.mul_le_mul_right _ hlt
  have h2 : f / asz * asz ≤ f := Nat.div_mul_le_self f asz
  unfold flat at h
  rw [Nat.succ_mul] at h1
  linarith

theorem mod_lt_of_flat_lt (asz a o f : Nat) (h0 : 0 < asz) (ho : o < asz)
    (h : f < flat asz a o) (ha : f / asz = a) : f % asz < o := by
  have h2 := Nat.div_add_mod f asz
  rw [ha] at h2
  unfold flat at h
  have : asz * a = a * asz := Nat.mul_comm _ _
  linarith

/-! ### `flip_tail_page_forward` facts -/

theorem flip_tail_tail_aid (q : BigQueue) :
    (flip_tail_page_forward q).tail_aid = q.tail_aid + 1 := rfl

theorem flip_tail_tail_offset (q : BigQueue) :
    (flip_tail_page_forward q).tail_offset = q.tail_offset := rfl

theorem flip_tail_head_aid (q : BigQueue) :
    (flip_tail_page_forward q).head_aid = q.head_aid := rfl

theorem flip_tail_head_offset (q : BigQueue) :
    (flip_tail_page_forward q).head_offset = q.head_offset := rfl

theorem flip_tail_index (q : BigQueue) :
    (flip_tail_page_forward q).index = q.index := rfl

theorem flip_tail_config (q : BigQueue) :
    (flip_tail_page_forward q).config = q.config := rfl

theorem flip_tail_store_ne (q : BigQueue) (a o : Nat) (ha : a ≠ q.tail_aid + 1) :
    (flip_tail_page_forward q).store a o = q.store a o := by
  unfold flip_tail_page_forward
  simp only
  split
  · rfl
  · rw [Function.update_noteq ha]

theorem flip_tail_files_mono (q : BigQueue) (a : Nat) (h : q.files.contains a) :
    (flip_tail_page_forward q).files.contains a := by
  unfold flip_tail_page_forward
  simp only
  split
  · exact h
  · simp only [List.contains_cons, Bool.or_eq_true]
    right
    exact h

theorem flip_tail_files_new (q : BigQueue) :
    (flip_tail_page_forward q).files.contains (q.tail_aid + 1) := by
  unfold flip_tail_page_forward
  simp only
  split
  · assumption
  · simp

/-! ### `write_length` specification -/

theorem write_length_spec (q : BigQueue) (off L : Nat)
    (h8 : 8 < q.config.arena_size) (ho : off < q.config.arena_size) :
    ∃ q',
      write_length q off L = ((afterLen q.config.arena_size (q.tail_aid, off)).2, q') ∧
      q'.config = q.config ∧ q'.index = q.index ∧
      q'.head_aid = q.head_aid ∧ q'.head_offset = q.head_offset ∧
      q'.tail_offset = q.tail_offset ∧
      q'.tail_aid = (afterLen q.config.arena_size (q.tail_aid, off)).1 ∧
      (∀ a, q.files.contains a → q'.files.contains a) ∧
      (∀ a, a ≤ q'.tail_aid → a ≤ q.tail_aid ∨ q'.files.contains a) ∧
      (∀ j, j < 8 → q'.store (lenPos q.config.arena_size (q.tail_aid, off)).1
        ((lenPos q.config.arena_size (q.tail_aid, off)).2 + j) = leByte L j) ∧
      (∀ f, f < flat q.config.arena_size q.tail_aid off →
        flatStore q'.store q.config.arena_size f = flatStore q.store q.config.arena_size f) := by
  by_cases h1 : off + 8 > q.config.arena_size
  · -- pre-flip: the length word goes to offset 0 of the fresh arena `tail_aid + 1`
    have hAL1 : afterLen q.config.arena_size (q.tail_aid, off) = (q.tail_aid + 1, 8) := by
      unfold afterLen; rw [if_pos h1]
    have hLP : lenPos q.config.arena_size (q.tail_aid, off) = (q.tail_aid + 1, 0) := by
      unfold lenPos; rw [if_pos h1]
    rw [hAL1, hLP]
    simp only [write_length]
    rw [if_pos h1]
    dsimp only
    rw [write_u64_pos _ _ _ _ (by omega)]
    dsimp only
    rw [if_neg (by simp only [beq_iff_eq]; omega)]
    refine ⟨_, rfl, rfl, rfl, rfl, rfl, rfl, rfl, ?_, ?_, ?_, ?_⟩
    · intro a ha; exact flip_tail_files_mono q a ha
    · intro a ha
      by_cases hae : a = q.tail_aid + 1
      · right
        subst hae
        exact flip_tail_files_new q
      · left
        dsimp only at ha
        rw [flip_tail_tail_aid] at ha
        omega
    · intro j hj
      have e : (flip_tail_page_forward q).tail_aid = q.tail_aid + 1 := flip_tail_tail_aid q
      show (Function.update (flip_tail_page_forward q).store (flip_tail_page_forward q).tail_aid _)
        (q.tail_aid + 1) (0 + j) = leByte L j
      rw [← e, Function.update_same]
      rw [if_pos (by omega)]
      simp
    · intro f hf
      unfold flatStore
      dsimp only
      have hdiv : f / q.config.arena_size ≤ q.tail_aid :=
        div_le_of_flat_lt _ q.tail_aid off f (by omega) ho hf
      have e : (flip_tail_page_forward q).tail_aid = q.tail_aid + 1 := flip_tail_tail_aid q
      rw [Function.update_noteq (by omega : f / q.config.arena_size ≠ (flip_tail_page_forward q).tail_aid)]
      exact flip_tail_store_ne q _ _ (by omega)
  · -- the length word fits at `off`
    have hle : off + 8 ≤ q.config.arena_size := by omega
    have hLP : lenPos q.config.arena_size (q.tail_aid, off) = (q.tail_aid, off) := by
      unfold lenPos; rw [if_neg h1]
    by_cases h2 : off + 8 = q.config.arena_size
    · -- exact fit: flip after the write
      have hAL1 : afterLen q.config.arena_size (q.tail_aid, off) = (q.tail_aid + 1, 0) := by
        unfold afterLen; rw [if_neg h1]; dsimp only; rw [if_pos h2]
      rw [hAL1, hLP]
      simp only [write_length]
      rw [if_neg h1]
      dsimp only
      rw [write_u64_pos _ _ _ _ hle]
      dsimp only
      rw [if_pos (by simp only [beq_iff_eq]; omega)]
      refine ⟨_, rfl, rfl, rfl, rfl, rfl, rfl, ?_, ?_, ?_, ?_, ?_⟩
      · exact flip_tail_tail_aid _
      · intro a ha; exact flip_tail_files_mono _ a ha
      · intro a ha
        rw [flip_tail_tail_aid] at ha
        dsimp only at ha
        by_cases hae : a = q.tail_aid + 1
        · right
          subst hae
          exact flip_tail_files_new _
        · left; omega
      · intro j hj
        rw [flip_tail_store_ne _ _ _ (by dsimp only; omega)]
        dsimp only
        rw [Function.update_same]
        rw [if_pos (by omega)]
        simp
      · intro f hf
        have hdiv : f / q.config.arena_size ≤ q.tail_aid :=
          div_le_of_flat_lt _ q.tail_aid off f (by omega) ho hf
        unfold flatStore
        rw [flip_tail_store_ne _ _ _ (by dsimp only; omega)]
        dsimp only
        by_cases hfa : f / q.config.arena_size = q.tail_aid
        · rw [hfa, Function.update_same]
          have := mod_lt_of_flat_lt _ q.tail_aid off f (by omega) ho hf hfa
          rw [if_neg (by omega)]
        · rw [Function.update_noteq hfa]
    · -- no flip at all
      have hAL1 : afterLen q.config.arena_size (q.tail_aid, off) = (q.tail_aid, off + 8) := by
        unfold afterLen; rw [if_neg h1]; dsimp only; rw [if_neg h2]
      rw [hAL1, hLP]
      simp only [write_length]
      rw [if_neg h1]
      dsimp only
      rw [write_u64_pos _ _ _ _ hle]
      dsimp only
      rw [if_neg (by simp only [beq_iff_eq]; omega)]
      refine ⟨_, rfl, rfl, rfl, rfl, rfl, rfl, rfl, ?_, ?_, ?_, ?_⟩
      · intro a ha; exact ha
      · intro a ha; left; exact ha
      · intro j hj
        dsimp only
        rw [Function.update_same]
        rw [if_pos (by omega)]
        simp
      · intro f hf
        unfold flatStore
        dsimp only
        by_cases hfa : f / q.config.arena_size = q.tail_aid
        · rw [hfa, Function.update_same]
          have := mod_lt_of_flat_lt _ q.tail_aid off f (by omega) ho hf hfa
          rw [if_neg (by omega)]
        · rw [Function.update_noteq hfa]


/-! ### `write_bytes` loop specification -/

theorem afterPayload_shift (asz a i_offset L : Nat) (h : 0 < asz)
    (hlt : i_offset < asz) (hgt : asz < i_offset + L) :
    afterPayload asz (a + 1, 0) (L - (asz - i_offset)) = afterPayload asz (a, i_offset) L := by
  have he : i_offset + L = (L - (asz - i_offset)) + asz := by omega
  unfold afterPayload
  dsimp only
  rw [he, Nat.add_div_right _ h, Nat.add_mod_right]
  rw [Nat.zero_add]
  refine Prod.ext ?_ rfl
  dsimp only
  omega

theorem flat_shift (asz a i_offset i : Nat) (hle : i_offset ≤ asz) (hi : asz - i_offset ≤ i) :
    flat asz (a + 1) 0 + (i - (asz - i_offset)) = flat asz a i_offset + i := by
  unfold flat
  rw [Nat.succ_mul]
  omega

theorem write_bytes_go_spec (bytes : List Nat) :
    ∀ (fuel : Nat) (q : BigQueue) (i_offset count : Nat),
      8 < q.config.arena_size →
      i_offset < q.config.arena_size →
      count ≤ bytes.length →
      bytes.length - count + 1 ≤ fuel →
      ∃ q',
        write_bytes_go bytes fuel q i_offset count (bytes.length - count) = some q' ∧
        q'.config = q.config ∧ q'.index = q.index ∧
        q'.head_aid = q.head_aid ∧ q'.head_offset = q.head_offset ∧
        (q'.tail_aid, q'.tail_offset) =
          afterPayload q.config.arena_size (q.tail_aid, i_offset) (bytes.length - count) ∧
        (∀ a, q.files.contains a → q'.files.contains a) ∧
        (∀ a, a ≤ q'.tail_aid → a ≤ q.tail_aid ∨ q'.files.contains a) ∧
        (∀ i, i < bytes.length - count →
          flatStore q'.store q.config.arena_size
            (flat q.config.arena_size q.tail_aid i_offset + i) = bytes.getD (count + i) 0) ∧
        (∀ f, f < flat q.config.arena_size q.tail_aid i_offset →
          flatStore q'.store q.config.arena_size f = flatStore q.store q.config.arena_size f) := by
  intro fuel
  induction fuel with
  | zero => intro q i_offset count _ _ _ hfuel; omega
  | succ fuel ih =>
    intro q i_offset count h8 hio hcount hfuel
    by_cases hstrad : i_offset + (bytes.length - count) > q.config.arena_size
    · -- straddling chunk, then recurse on the next arena
      have hchunk1 : count ≤ count + q.config.arena_size - i_offset := by omega
      have hchunk2 : count + q.config.arena_size - i_offset ≤ bytes.length := by omega
      set piece : List Nat :=
        (bytes.drop count).take (count + q.config.arena_size - i_offset - count) with hpiece
      have hpiecelen : piece.length = q.config.arena_size - i_offset := by
        rw [hpiece]
        have := listSlice_piece_length bytes count
          (count + q.config.arena_size - i_offset) hchunk1 hchunk2
        rw [this]
        omega
      have hpieceget : ∀ k, k < piece.length → piece.getD k 0 = bytes.getD (count + k) 0 := by
        intro k hk
        rw [hpiece]
        exact listSlice_piece_getD bytes count (count + q.config.arena_size - i_offset) k
          hchunk1 hchunk2 (by omega)
      have hsl : listSlice bytes count (count + q.config.arena_size - i_offset) = some piece :=
        listSlice_pos bytes count _ hchunk1 hchunk2
      have hregion : i_offset + piece.length ≤ q.config.arena_size := by
        rw [hpiecelen]; omega
      set mfun : Nat → Nat := fun k =>
        if i_offset ≤ k ∧ k < i_offset + piece.length then piece.getD (k - i_offset) 0
        else q.store q.tail_aid k with hmfun
      have hwr : write_bytes_region (q.store q.tail_aid) q.config.arena_size i_offset piece =
          some mfun :=
        write_bytes_region_pos _ _ _ _ hregion
      simp only [write_bytes_go]
      rw [if_pos (by simpa using hstrad)]
      rw [hsl]
      dsimp only
      rw [hwr]
      dsimp only
      set q2 : BigQueue :=
        flip_tail_page_forward { q with store := Function.update q.store q.tail_aid mfun }
        with hq2
      obtain ⟨q', hq'eq, hcfg, hidx, hha, hho, htail, hfm, hfi, heff, hfr⟩ :=
        ih q2 0 (count + piece.length)
          (by exact h8)
          (by exact Nat.lt_trans (by norm_num) h8)
          (by rw [hpiecelen]; omega)
          (by rw [hpiecelen]; omega)
      have hq2cfg : q2.config = q.config := by rw [hq2]; exact flip_tail_config _
      have hq2taid : q2.tail_aid = q.tail_aid + 1 := by rw [hq2]; exact flip_tail_tail_aid _
      rw [hq2cfg] at htail heff hfr
      rw [hq2taid] at htail hfi heff hfr
      refine ⟨q', hq'eq, hcfg.trans hq2cfg, ?_, ?_, ?_, ?_, ?_, ?_, ?_, ?_⟩
      · rw [hidx, hq2]; exact flip_tail_index _
      · rw [hha, hq2]; exact flip_tail_head_aid _
      · rw [hho, hq2]; exact flip_tail_head_offset _
      · -- tail cursor
        rw [htail]
        have harg : bytes.length - (count + piece.length) =
            (bytes.length - count) - (q.config.arena_size - i_offset) := by
          rw [hpiecelen]; omega
        rw [harg]
        exact afterPayload_shift _ q.tail_aid i_offset (bytes.length - count)
          (by omega) hio (by omega)
      · intro a ha
        refine hfm a ?_
        rw [hq2]
        exact flip_tail_files_mono _ a ha
      · intro a ha
        rcases hfi a ha with h | h
        · by_cases hae : a = q.tail_aid + 1
          · right
            refine hfm _ ?_
            subst hae
            rw [hq2, ← hq2taid, hq2]
            exact flip_tail_files_new _
          · left; omega
        · right; exact h
      · -- payload bytes
        intro i hi
        by_cases hcase : i < q.config.arena_size - i_offset
        · -- written by this chunk; survives the recursion by the frame property
          have hlt : flat q.config.arena_size q.tail_aid i_offset + i <
              flat q.config.arena_size (q.tail_aid + 1) 0 := by
            unfold flat; rw [Nat.succ_mul]; omega
          rw [hfr _ hlt]
          have hoi : i_offset + i < q.config.arena_size := by omega
          have hflat : flat q.config.arena_size q.tail_aid i_offset + i =
              flat q.config.arena_size q.tail_aid (i_offset + i) := by
            unfold flat; omega
          rw [hflat, flatStore_eq _ _ _ _ hoi]
          rw [hq2]
          rw [flip_tail_store_ne _ _ _ (by dsimp only; omega)]
          dsimp only
          rw [Function.update_same, hmfun]
          dsimp only
          rw [if_pos (by constructor <;> omega)]
          have he2 : i_offset + i - i_offset = i := by omega
          rw [he2]
          exact hpieceget i (by omega)
        · -- written by the recursive call
          have hi2 : i - (q.config.arena_size - i_offset) <
              bytes.length - (count + piece.length) := by
            rw [hpiecelen]; omega
          have hh := heff (i - (q.config.arena_size - i_offset)) hi2
          rw [flat_shift _ q.tail_aid i_offset i (by omega) (by omega)] at hh
          rw [hh]
          congr 1
          rw [hpiecelen]
          omega
      · -- frame
        intro f hf
        have hlt : f < flat q.config.arena_size (q.tail_aid + 1) 0 := by
          unfold flat at hf ⊢; rw [Nat.succ_mul]; omega
        rw [hfr _ hlt]
        unfold flatStore
        have hdiv : f / q.config.arena_size ≤ q.tail_aid :=
          div_le_of_flat_lt _ q.tail_aid i_offset f (by omega) hio hf
        rw [hq2]
        rw [flip_tail_store_ne _ _ _ (by dsimp only; omega)]
        dsimp only
        by_cases hfa : f / q.config.arena_size = q.tail_aid
        · rw [hfa, Function.update_same, hmfun]
          dsimp only
          have := mod_lt_of_flat_lt _ q.tail_aid i_offset f (by omega) hio hf hfa
          rw [if_neg (by omega)]
        · rw [Function.update_noteq hfa]
    · -- final chunk fits in the current arena
      have hfit : i_offset + (bytes.length - count) ≤ q.config.arena_size := by omega
      set piece : List Nat := (bytes.drop count).take (bytes.length - count) with hpiece
      have hpiecelen : piece.length = bytes.length - count := by
        rw [hpiece]
        exact listSlice_piece_length bytes count bytes.length hcount (le_refl _)
      have hpieceget : ∀ k, k < piece.length → piece.getD k 0 = bytes.getD (count + k) 0 := by
        intro k hk
        rw [hpiece]
        exact listSlice_piece_getD bytes count bytes.length k hcount (le_refl _) (by omega)
      have hsl : listSlice bytes count bytes.length = some piece :=
        listSlice_pos bytes count bytes.length hcount (le_refl _)
      have hregion : i_offset + piece.length ≤ q.config.arena_size := by
        rw [hpiecelen]; omega
      set mfun : Nat → Nat := fun k =>
        if i_offset ≤ k ∧ k < i_offset + piece.length then piece.getD (k - i_offset) 0
        else q.store q.tail_aid k with hmfun
      have hwr : write_bytes_region (q.store q.tail_aid) q.config.arena_size i_offset piece =
          some mfun :=
        write_bytes_region_pos _ _ _ _ hregion
      have heffbase : ∀ i, i < bytes.length - count →
          (Function.update q.store q.tail_aid mfun) q.tail_aid (i_offset + i) =
            bytes.getD (count + i) 0 := by
        intro i hi
        rw [Function.update_same, hmfun]
        dsimp only
        rw [if_pos (by constructor <;> omega)]
        have he2 : i_offset + i - i_offset = i := by omega
        rw [he2]
        exact hpieceget i (by omega)
      have hframebase : ∀ f, f < flat q.config.arena_size q.tail_aid i_offset →
          flatStore (Function.update q.store q.tail_aid mfun) q.config.arena_size f =
            flatStore q.store q.config.arena_size f := by
        intro f hf
        unfold flatStore
        by_cases hfa : f / q.config.arena_size = q.tail_aid
        · rw [hfa, Function.update_same, hmfun]
          dsimp only
          have := mod_lt_of_flat_lt _ q.tail_aid i_offset f (by omega) hio hf hfa
          rw [if_neg (by omega)]
        · rw [Function.update_noteq hfa]
      simp only [write_bytes_go]
      rw [if_neg (by simpa using hstrad)]
      rw [hsl]
      dsimp only
      rw [hwr]
      dsimp only
      by_cases hexact : i_offset + (bytes.length - count) = q.config.arena_size
      · -- the record ends exactly at the arena boundary: flip, offset 0
        rw [if_pos (by simp only [beq_iff_eq]; omega)]
        refine ⟨_, rfl, ?_, ?_, ?_, ?_, ?_, ?_, ?_, ?_, ?_⟩
        · exact flip_tail_config _
        · exact flip_tail_index _
        · exact flip_tail_head_aid _
        · exact flip_tail_head_offset _
        · show ((flip_tail_page_forward _).tail_aid, (0 : Nat)) = _
          rw [flip_tail_tail_aid]
          dsimp only
          unfold afterPayload
          rw [hexact, Nat.div_self (by omega), Nat.mod_self]
        · intro a ha
          exact flip_tail_files_mono _ a ha
        · intro a ha
          rw [flip_tail_tail_aid] at ha
          dsimp only at ha
          by_cases hae : a = q.tail_aid + 1
          · right
            subst hae
            exact flip_tail_files_new _
          · left; omega
        · intro i hi
          have hoi : i_offset + i < q.config.arena_size := by omega
          have hflat : flat q.config.arena_size q.tail_aid i_offset + i =
              flat q.config.arena_size q.tail_aid (i_offset + i) := by
            unfold flat; omega
          rw [hflat, flatStore_eq _ _ _ _ hoi]
          show (flip_tail_page_forward _).store q.tail_aid (i_offset + i) = _
          rw [flip_tail_store_ne _ _ _ (by dsimp only; omega)]
          exact heffbase i hi
        · intro f hf
          have hdiv : f / q.config.arena_size ≤ q.tail_aid :=
            div_le_of_flat_lt _ q.tail_aid i_offset f (by omega) hio hf
          show flatStore (flip_tail_page_forward _).store _ f = _
          unfold flatStore
          rw [flip_tail_store_ne _ _ _ (by dsimp only; omega)]
          exact hframebase f hf
      · -- the record ends strictly inside the arena
        rw [if_neg (by simp only [beq_iff_eq]; omega)]
        refine ⟨_, rfl, rfl, rfl, rfl, rfl, ?_, ?_, ?_, ?_, ?_⟩
        · dsimp only
          unfold afterPayload
          rw [Nat.div_eq_of_lt (by omega), Nat.mod_eq_of_lt (by omega)]
          rfl
        · intro a ha; exact ha
        · intro a ha; left; exact ha
        · intro i hi
          have hoi : i_offset + i < q.config.arena_size := by omega
          have hflat : flat q.config.arena_size q.tail_aid i_offset + i =
              flat q.config.arena_size q.tail_aid (i_offset + i) := by
            unfold flat; omega
          rw [hflat, flatStore_eq _ _ _ _ hoi]
          exact heffbase i hi
        · exact hframebase

/-- `write_bytesQ` top-level: called with `count = 0` and full fuel. -/
theorem write_bytesQ_spec (q : BigQueue) (offset : Nat) (bytes : List Nat)
    (h8 : 8 < q.config.arena_size) (ho : offset < q.config.arena_size) :
    ∃ q',
      write_bytesQ q offset bytes = some q' ∧
      q'.config = q.config ∧ q'.index = q.index ∧
      q'.head_aid = q.head_aid ∧ q'.head_offset = q.head_offset ∧
      (q'.tail_aid, q'.tail_offset) =
        afterPayload q.config.arena_size (q.tail_aid, offset) bytes.length ∧
      (∀ a, q.files.contains a → q'.files.contains a) ∧
      (∀ a, a ≤ q'.tail_aid → a ≤ q.tail_aid ∨ q'.files.contains a) ∧
      (∀ i, i < bytes.length →
        flatStore q'.store q.config.arena_size
          (flat q.config.arena_size q.tail_aid offset + i) = bytes.getD i 0) ∧
      (∀ f, f < flat q.config.arena_size q.tail_aid offset →
        flatStore q'.store q.config.arena_size f = flatStore q.store q.config.arena_size f) := by
  have h := write_bytes_go_spec bytes (bytes.length + 1) q offset 0 h8 ho (Nat.zero_le _)
    (by omega)
  simp only [Nat.sub_zero] at h
  obtain ⟨q', h1, h2⟩ := h
  refine ⟨q', ?_, ?_⟩
  · unfold write_bytesQ
    exact h1
  · simpa using h2


/-! ### Read-side lemmas -/

theorem le_of_mul_le_flat (asz a b o : Nat) (ho : o < asz)
    (h : a * asz ≤ flat asz b o) : a ≤ b := by
  by_contra h2
  push_neg at h2
  have h3 : (b + 1) * asz ≤ a * asz := Nat.mul_le_mul_right _ (by omega)
  unfold flat at h
  rw [Nat.succ_mul] at h3
  linarith

theorem flip_head_success (q : BigQueue) (aid : Nat)
    (h : q.cache.contains aid = true ∨ q.files.contains aid = true) :
    ∃ c', flip_head_page_to q aid = some { q with head_aid := aid, cache := c' } := by
  unfold flip_head_page_to
  by_cases h1 : q.cache.contains aid = true
  · rw [if_pos h1]
    exact ⟨_, rfl⟩
  · rw [if_neg h1]
    rcases h with h | h
    · contradiction
    · rw [if_pos h]
      exact ⟨_, rfl⟩

theorem readList_zero (st : Nat → Nat → Nat) (asz f0 : Nat) : readList st asz f0 0 = [] := by
  simp [readList]

theorem readList_append (st : Nat → Nat → Nat) (asz f0 m n : Nat) :
    readList st asz f0 (m + n) = readList st asz f0 m ++ readList st asz (f0 + m) n := by
  unfold readList
  rw [List.range_add, List.map_append, List.map_map]
  congr 1
  apply List.map_congr_left
  intro a _
  simp only [Function.comp]
  congr 1
  omega

theorem readList_length (st : Nat → Nat → Nat) (asz f0 L : Nat) :
    (readList st asz f0 L).length = L := by simp [readList]

theorem readList_getD (st : Nat → Nat → Nat) (asz f0 L i : Nat) (hi : i < L) :
    (readList st asz f0 L).getD i 0 = flatStore st asz (f0 + i) := by
  unfold readList
  rw [List.getD_eq_getElem _ _ (by simpa using hi)]
  rw [List.getElem_map, List.getElem_range]

/-- A slice read from one arena, re-expressed through `flatStore`. -/
theorem slice_as_readList (q : BigQueue) (aid start stop : Nat)
    (h1 : start ≤ stop) (h2 : stop ≤ q.config.arena_size) :
    (List.range (stop - start)).map (fun k => q.store aid (start + k)) =
      readList q.store q.config.arena_size (flat q.config.arena_size aid start)
        (stop - start) := by
  unfold readList
  apply List.map_congr_left
  intro a ha
  rw [List.mem_range] at ha
  have hsa : start + a < q.config.arena_size := by omega
  have : flat q.config.arena_size aid start + a = flat q.config.arena_size aid (start + a) := by
    unfold flat; omega
  rw [this, flatStore_eq _ _ _ _ hsa]

theorem read_bytes_go_spec :
    ∀ (fuel : Nat) (q : BigQueue) (acc : List Nat) (i_offset i_length : Nat),
      8 < q.config.arena_size →
      i_offset < q.config.arena_size →
      i_length + 1 ≤ fuel →
      (∀ a, a ≤ q.tail_aid → q.files.contains a = true) →
      flat q.config.arena_size q.head_aid i_offset + i_length ≤
        flat q.config.arena_size q.tail_aid q.tail_offset →
      q.tail_offset < q.config.arena_size →
      ∃ c',
        read_bytes_go fuel q acc i_offset i_length =
          some (some (acc ++ readList q.store q.config.arena_size
              (flat q.config.arena_size q.head_aid i_offset) i_length),
            { q with
                head_aid := (afterPayload q.config.arena_size (q.head_aid, i_offset) i_length).1,
                head_offset :=
                  (afterPayload q.config.arena_size (q.head_aid, i_offset) i_length).2,
                cache := c' }) := by
  intro fuel
  induction fuel with
  | zero => intro q acc i_offset i_length _ _ hfuel _ _ _; omega
  | succ fuel ih =>
    intro q acc i_offset i_length h8 hio hfuel hfiles hbound htoff
    by_cases hstrad : i_offset + i_length > q.config.arena_size
    · -- read to the end of this arena, flip, recurse
      have hslice : region_get (q.store q.head_aid) q.config.arena_size i_offset
          q.config.arena_size =
          some ((List.range (q.config.arena_size - i_offset)).map
            fun k => q.store q.head_aid (i_offset + k)) :=
        region_get_pos _ _ _ _ (by omega) (le_refl _)
      have hnext : q.head_aid + 1 ≤ q.tail_aid := by
        refine le_of_mul_le_flat q.config.arena_size (q.head_aid + 1) q.tail_aid
          q.tail_offset htoff ?_
        have : (q.head_aid + 1) * q.config.arena_size ≤
            flat q.config.arena_size q.head_aid i_offset + i_length := by
          unfold flat; rw [Nat.succ_mul]; omega
        omega
      obtain ⟨c1, hflip⟩ := flip_head_success q (q.head_aid + 1)
        (Or.inr (hfiles _ hnext))
      simp only [read_bytes_go]
      rw [if_pos (by simpa using hstrad)]
      rw [hslice]
      dsimp only
      rw [hflip]
      dsimp only
      have hlen : ((List.range (q.config.arena_size - i_offset)).map
          fun k => q.store q.head_aid (i_offset + k)).length =
          q.config.arena_size - i_offset := by simp
      rw [hlen]
      obtain ⟨c', hrec⟩ := ih { q with head_aid := q.head_aid + 1, cache := c1 }
        (acc ++ (List.range (q.config.arena_size - i_offset)).map
          fun k => q.store q.head_aid (i_offset + k))
        0 (i_length - (q.config.arena_size - i_offset))
        h8 (by exact Nat.lt_trans (by norm_num) h8) (by omega) hfiles
        (by
          show flat q.config.arena_size (q.head_aid + 1) 0 + _ ≤ _
          rw [flat_shift _ q.head_aid i_offset i_length (by omega) (by omega)]
          exact hbound)
        htoff
      rw [hrec]
      refine ⟨c', ?_⟩
      dsimp only
      have hap : afterPayload q.config.arena_size (q.head_aid + 1, 0)
          (i_length - (q.config.arena_size - i_offset)) =
          afterPayload q.config.arena_size (q.head_aid, i_offset) i_length :=
        afterPayload_shift _ q.head_aid i_offset i_length (by omega) hio (by omega)
      rw [hap]
      have hbytes : (List.range (q.config.arena_size - i_offset)).map
            (fun k => q.store q.head_aid (i_offset + k)) ++
          readList q.store q.config.arena_size
            (flat q.config.arena_size (q.head_aid + 1) 0)
            (i_length - (q.config.arena_size - i_offset)) =
          readList q.store q.config.arena_size
            (flat q.config.arena_size q.head_aid i_offset) i_length := by
        rw [slice_as_readList q q.head_aid i_offset q.config.arena_size (by omega) (le_refl _)]
        have hsplit : i_length =
            (q.config.arena_size - i_offset) +
              (i_length - (q.config.arena_size - i_offset)) := by
          omega
        conv_rhs => rw [hsplit]
        rw [readList_append]
        congr 2
        unfold flat
        rw [Nat.succ_mul]
        omega
      rw [List.append_assoc, hbytes]
    · -- final slice inside this arena
      have hslice : region_get (q.store q.head_aid) q.config.arena_size i_offset
          (i_offset + i_length) =
          some ((List.range (i_offset + i_length - i_offset)).map
            fun k => q.store q.head_aid (i_offset + k)) :=
        region_get_pos _ _ _ _ (by omega) (by omega)
      have hred : i_offset + i_length - i_offset = i_length := by omega
      by_cases hexact : i_offset + i_length = q.config.arena_size
      · -- payload ends exactly at the boundary: flip, offset 0
        have hnext : q.head_aid + 1 ≤ q.tail_aid := by
          refine le_of_mul_le_flat q.config.arena_size (q.head_aid + 1) q.tail_aid
            q.tail_offset htoff ?_
          have : (q.head_aid + 1) * q.config.arena_size =
              flat q.config.arena_size q.head_aid i_offset + i_length := by
            unfold flat; rw [Nat.succ_mul]; omega
          omega
        obtain ⟨c1, hflip⟩ := flip_head_success q (q.head_aid + 1)
          (Or.inr (hfiles _ hnext))
        simp only [read_bytes_go]
        rw [if_neg (by simpa using hstrad)]
        rw [hslice]
        dsimp only
        rw [if_pos (by simp only [beq_iff_eq]; omega)]
        rw [hflip]
        dsimp only
        refine ⟨c1, ?_⟩
        dsimp only
        have hap : afterPayload q.config.arena_size (q.head_aid, i_offset) i_length =
            (q.head_aid + 1, 0) := by
          unfold afterPayload
          rw [hexact, Nat.div_self (by omega), Nat.mod_self]
        rw [hap]
        have hbytes : (List.range (i_offset + i_length - i_offset)).map
              (fun k => q.store q.head_aid (i_offset + k)) =
            readList q.store q.config.arena_size
              (flat q.config.arena_size q.head_aid i_offset) i_length := by
          rw [slice_as_readList q q.head_aid i_offset (i_offset + i_length) (by omega)
            (by omega), hred]
        rw [hbytes]
      · -- payload ends strictly inside the arena
        simp only [read_bytes_go]
        rw [if_neg (by simpa using hstrad)]
        rw [hslice]
        dsimp only
        rw [if_neg (by simp only [beq_iff_eq]; omega)]
        refine ⟨q.cache, ?_⟩
        dsimp only
        have hap : afterPayload q.config.arena_size (q.head_aid, i_offset) i_length =
            (q.head_aid, i_offset + i_length) := by
          unfold afterPayload
          rw [Nat.div_eq_of_lt (by omega), Nat.mod_eq_of_lt (by omega)]
          simp
        rw [hap]
        have hbytes : (List.range (i_offset + i_length - i_offset)).map
              (fun k => q.store q.head_aid (i_offset + k)) =
            readList q.store q.config.arena_size
              (flat q.config.arena_size q.head_aid i_offset) i_length := by
          rw [slice_as_readList q q.head_aid i_offset (i_offset + i_length) (by omega)
            (by omega), hred]
        rw [hbytes]

/-- `read_bytesQ` top-level. -/
theorem read_bytesQ_spec (q : BigQueue) (L : Nat)
    (h8 : 8 < q.config.arena_size) (hh : q.head_offset < q.config.arena_size)
    (hfiles : ∀ a, a ≤ q.tail_aid → q.files.contains a = true)
    (hbound : flat q.config.arena_size q.head_aid q.head_offset + L ≤
      flat q.config.arena_size q.tail_aid q.tail_offset)
    (htoff : q.tail_offset < q.config.arena_size) :
    ∃ c',
      read_bytesQ q L =
        some (some (readList q.store q.config.arena_size
            (flat q.config.arena_size q.head_aid q.head_offset) L),
          { q with
              head_aid := (afterPayload q.config.arena_size (q.head_aid, q.head_offset) L).1,
              head_offset :=
                (afterPayload q.config.arena_size (q.head_aid, q.head_offset) L).2,
              cache := c' }) := by
  obtain ⟨c', h⟩ := read_bytes_go_spec (L + 1) q [] q.head_offset L h8 hh (le_refl _)
    hfiles hbound htoff
  rw [List.nil_append] at h
  exact ⟨c', h⟩


theorem read_u64_pos (m : Nat → Nat) (mlen off : Nat) (h : off + 8 ≤ mlen) :
    read_u64 m mlen off = some (decodeLE 8 m off) := by
  simp [read_u64, h]

theorem read_lengthQ_spec (q : BigQueue)
    (h8 : 8 < q.config.arena_size) (hh : q.head_offset < q.config.arena_size)
    (hfiles : ∀ a, a ≤ q.tail_aid → q.files.contains a = true)
    (hbound : flat q.config.arena_size
        (afterLen q.config.arena_size (q.head_aid, q.head_offset)).1
        (afterLen q.config.arena_size (q.head_aid, q.head_offset)).2 ≤
      flat q.config.arena_size q.tail_aid q.tail_offset)
    (htoff : q.tail_offset < q.config.arena_size) :
    ∃ c',
      read_lengthQ q =
        (some (recLen q.store q.config.arena_size (q.head_aid, q.head_offset)),
          { q with
              head_aid := (afterLen q.config.arena_size (q.head_aid, q.head_offset)).1,
              head_offset := (afterLen q.config.arena_size (q.head_aid, q.head_offset)).2,
              cache := c' }) := by
  by_cases h1 : q.head_offset + 8 > q.config.arena_size
  · -- flip before the read; the length is then read at offset 0 of the next arena
    have hAL : afterLen q.config.arena_size (q.head_aid, q.head_offset) =
        (q.head_aid + 1, 8) := by
      unfold afterLen; rw [if_pos h1]
    have hLP : lenPos q.config.arena_size (q.head_aid, q.head_offset) =
        (q.head_aid + 1, 0) := by
      unfold lenPos; rw [if_pos h1]
    rw [hAL] at hbound ⊢
    dsimp only at hbound
    have htarget : q.head_aid + 1 ≤ q.tail_aid := by
      refine le_of_mul_le_flat q.config.arena_size (q.head_aid + 1) q.tail_aid
        q.tail_offset htoff ?_
      have : (q.head_aid + 1) * q.config.arena_size ≤
          flat q.config.arena_size (q.head_aid + 1) 8 := by
        unfold flat; omega
      omega
    obtain ⟨c1, hflip⟩ := flip_head_success q (q.head_aid + 1) (Or.inr (hfiles _ htarget))
    refine ⟨c1, ?_⟩
    simp only [read_lengthQ]
    rw [if_pos h1, hflip]
    dsimp only
    rw [read_u64_pos _ _ _ (by omega)]
    dsimp only
    rw [if_neg (by simp only [beq_iff_eq]; omega)]
    unfold recLen
    rw [hLP]
  · have hle : q.head_offset + 8 ≤ q.config.arena_size := by omega
    have hLP : lenPos q.config.arena_size (q.head_aid, q.head_offset) =
        (q.head_aid, q.head_offset) := by
      unfold lenPos; rw [if_neg h1]
    by_cases h2 : q.head_offset + 8 = q.config.arena_size
    · -- length read ends exactly at the boundary: flip afterwards
      have hAL : afterLen q.config.arena_size (q.head_aid, q.head_offset) =
          (q.head_aid + 1, 0) := by
        unfold afterLen; rw [if_neg h1]; dsimp only; rw [if_pos h2]
      rw [hAL] at hbound ⊢
      dsimp only at hbound
      have htarget : q.head_aid + 1 ≤ q.tail_aid := by
        refine le_of_mul_le_flat q.config.arena_size (q.head_aid + 1) q.tail_aid
          q.tail_offset htoff ?_
        have : (q.head_aid + 1) * q.config.arena_size ≤
            flat q.config.arena_size (q.head_aid + 1) 0 := by
          unfold flat; omega
        omega
      obtain ⟨c1, hflip⟩ := flip_head_success q (q.head_aid + 1) (Or.inr (hfiles _ htarget))
      refine ⟨c1, ?_⟩
      simp only [read_lengthQ]
      rw [if_neg h1]
      dsimp only
      rw [read_u64_pos _ _ _ hle]
      dsimp only
      rw [if_pos (by simp only [beq_iff_eq]; omega), hflip]
      unfold recLen
      rw [hLP]
    · -- no flip
      have hAL : afterLen q.config.arena_size (q.head_aid, q.head_offset) =
          (q.head_aid, q.head_offset + 8) := by
        unfold afterLen; rw [if_neg h1]; dsimp only; rw [if_neg h2]
      rw [hAL]
      refine ⟨q.cache, ?_⟩
      simp only [read_lengthQ]
      rw [if_neg h1]
      dsimp only
      rw [read_u64_pos _ _ _ hle]
      dsimp only
      rw [if_neg (by simp only [beq_iff_eq]; omega)]
      unfold recLen
      rw [hLP]

theorem readList_eq_of_recordAt (st : Nat → Nat → Nat) (asz f0 : Nat) (pl : List Nat)
    (h : ∀ i, i < pl.length → flatStore st asz (f0 + i) = pl.getD i 0) :
    readList st asz f0 pl.length = pl := by
  apply List.ext_getElem (readList_length st asz f0 pl.length)
  intro i h1 h2
  have h3 : i < pl.length := h2
  rw [← List.getD_eq_getElem (readList st asz f0 pl.length) 0 h1,
      ← List.getD_eq_getElem pl 0 h2]
  rw [readList_getD st asz f0 pl.length i h3]
  exact h i h3

/-- A successful `pop` on a wellformed queue returns the front payload and
advances the head cursor past its record. -/
theorem popQ_spec (q : BigQueue) (pl : List Nat) (ps : List (List Nat))
    (hv : validQ q (pl :: ps)) :
    ∃ q',
      popQ q = some (.ok pl, q') ∧ validQ q' ps ∧
      q'.store = q.store ∧ q'.config = q.config ∧
      q'.tail_aid = q.tail_aid ∧ q'.tail_offset = q.tail_offset ∧
      q'.files = q.files ∧
      (q'.head_aid, q'.head_offset) =
        afterRecord q.config.arena_size (q.head_aid, q.head_offset) pl.length ∧
      (∀ i, 16 ≤ i → q'.index i = q.index i) := by
  obtain ⟨h8, hh, ht, hfiles, hch⟩ := hv
  obtain ⟨hlen64, hrec, hchrest⟩ := hch
  have hempty := isEmptyQ_false_of_cons q pl ps ⟨h8, hh, ht, hfiles, ⟨hlen64, hrec, hchrest⟩⟩
  have hfr : flat q.config.arena_size
      (afterRecord q.config.arena_size (q.head_aid, q.head_offset) pl.length).1
      (afterRecord q.config.arena_size (q.head_aid, q.head_offset) pl.length).2 ≤
      flat q.config.arena_size q.tail_aid q.tail_offset :=
    chain_flat_le q.store q.config.arena_size ps _ _ h8
      (afterRecord_snd_lt _ _ _ (by omega)) hchrest
  have hfAL := flat_afterRecord q.config.arena_size (q.head_aid, q.head_offset) pl.length
    (by omega)
  obtain ⟨c1, hrl⟩ := read_lengthQ_spec q h8 hh hfiles (by omega) ht
  have hALlt := afterLen_snd_lt q.config.arena_size (q.head_aid, q.head_offset) h8 hh
  obtain ⟨c2, hrb⟩ := read_bytesQ_spec
    { q with
        head_aid := (afterLen q.config.arena_size (q.head_aid, q.head_offset)).1,
        head_offset := (afterLen q.config.arena_size (q.head_aid, q.head_offset)).2,
        cache := c1 }
    pl.length h8 hALlt hfiles (by dsimp only; omega) ht
  dsimp only at hrb
  have hdata : readList q.store q.config.arena_size
      (flat q.config.arena_size
        (afterLen q.config.arena_size (q.head_aid, q.head_offset)).1
        (afterLen q.config.arena_size (q.head_aid, q.head_offset)).2) pl.length = pl :=
    readList_eq_of_recordAt _ _ _ pl hrec.2
  rw [hdata] at hrb
  have hlenval : recLen q.store q.config.arena_size (q.head_aid, q.head_offset) =
      pl.length := hrec.1
  simp only [popQ]
  rw [if_neg (by simp [hempty])]
  rw [hrl]
  dsimp only
  rw [hlenval, hrb]
  dsimp only
  refine ⟨_, rfl, ?_, ?_⟩
  · -- the new state is wellformed and holds `ps`
    unfold validQ set_head_index
    dsimp only
    refine ⟨h8, ?_, ht, hfiles, ?_⟩
    · exact afterPayload_snd_lt _ _ _ (by omega)
    · exact hchrest
  · unfold set_head_index
    dsimp only
    refine ⟨rfl, rfl, rfl, rfl, rfl, ?_, ?_⟩
    · show ((afterPayload q.config.arena_size _ pl.length).1,
        (afterPayload q.config.arena_size _ pl.length).2) = _
      unfold afterRecord
      rfl
    · intro i hi
      unfold set_indexWord
      rw [if_neg (by omega), if_neg (by omega)]

/-- A successful `peek` on a wellformed queue returns the front payload and
restores the head cursor; only the cache can differ. -/
theorem peekQ_spec (q : BigQueue) (pl : List Nat) (ps : List (List Nat))
    (hv : validQ q (pl :: ps)) :
    ∃ c', peekQ q = some (.ok pl, { q with cache := c' }) := by
  obtain ⟨h8, hh, ht, hfiles, hch⟩ := hv
  obtain ⟨hlen64, hrec, hchrest⟩ := hch
  have hempty := isEmptyQ_false_of_cons q pl ps ⟨h8, hh, ht, hfiles, ⟨hlen64, hrec, hchrest⟩⟩
  have hfr : flat q.config.arena_size
      (afterRecord q.config.arena_size (q.head_aid, q.head_offset) pl.length).1
      (afterRecord q.config.arena_size (q.head_aid, q.head_offset) pl.length).2 ≤
      flat q.config.arena_size q.tail_aid q.tail_offset :=
    chain_flat_le q.store q.config.arena_size ps _ _ h8
      (afterRecord_snd_lt _ _ _ (by omega)) hchrest
  have hfAL := flat_afterRecord q.config.arena_size (q.head_aid, q.head_offset) pl.length
    (by omega)
  obtain ⟨c1, hrl⟩ := read_lengthQ_spec q h8 hh hfiles (by omega) ht
  have hALlt := afterLen_snd_lt q.config.arena_size (q.head_aid, q.head_offset) h8 hh
  obtain ⟨c2, hrb⟩ := read_bytesQ_spec
    { q with
        head_aid := (afterLen q.config.arena_size (q.head_aid, q.head_offset)).1,
        head_offset := (afterLen q.config.arena_size (q.head_aid, q.head_offset)).2,
        cache := c1 }
    pl.length h8 hALlt hfiles (by dsimp only; omega) ht
  dsimp only at hrb
  have hdata : readList q.store q.config.arena_size
      (flat q.config.arena_size
        (afterLen q.config.arena_size (q.head_aid, q.head_offset)).1
        (afterLen q.config.arena_size (q.head_aid, q.head_offset)).2) pl.length = pl :=
    readList_eq_of_recordAt _ _ _ pl hrec.2
  rw [hdata] at hrb
  have hlenval : recLen q.store q.config.arena_size (q.head_aid, q.head_offset) =
      pl.length := hrec.1
  simp only [peekQ]
  rw [if_neg (by simp [hempty])]
  rw [hrl]
  dsimp only
  rw [hlenval, hrb]
  dsimp only
  exact ⟨c2, rfl⟩


/-- A `push` on a wellformed queue succeeds and appends its record at the old
tail position. -/
theorem pushQ_spec (q : BigQueue) (bytes : List Nat) (ps : List (List Nat))
    (hv : validQ q ps) (hlen : bytes.length < 2 ^ 64) :
    ∃ q',
      pushQ q bytes = some (.ok (), q') ∧ validQ q' (ps ++ [bytes]) ∧
      q'.head_aid = q.head_aid ∧ q'.head_offset = q.head_offset ∧
      q'.config = q.config ∧
      (∀ i, i < 16 → q'.index i = q.index i) ∧
      (q'.tail_aid, q'.tail_offset) =
        afterRecord q.config.arena_size (q.tail_aid, q.tail_offset) bytes.length := by
  obtain ⟨h8, hh, ht, hfiles, hch⟩ := hv
  obtain ⟨q1, he1, h1cfg, h1idx, h1ha, h1ho, h1to, h1ta, h1fm, h1fi, h1len, h1fr⟩ :=
    write_length_spec q q.tail_offset bytes.length h8 ht
  obtain ⟨q2, he2, h2cfg, h2idx, h2ha, h2ho, h2tail, h2fm, h2fi, h2eff, h2fr⟩ :=
    write_bytesQ_spec q1
      (afterLen q.config.arena_size (q.tail_aid, q.tail_offset)).2 bytes
      (by rw [h1cfg]; exact h8)
      (by rw [h1cfg]; exact afterLen_snd_lt _ _ h8 ht)
  rw [h1cfg] at h2tail h2eff h2fr
  rw [h1ta] at h2tail h2fi h2eff h2fr
  have hALge := flat_afterLen_ge q.config.arena_size (q.tail_aid, q.tail_offset) ht
  dsimp only at hALge
  -- bytes below the old tail are untouched by the whole push
  have hcombfr : ∀ f, f < flat q.config.arena_size q.tail_aid q.tail_offset →
      flatStore q2.store q.config.arena_size f = flatStore q.store q.config.arena_size f := by
    intro f hf
    rw [h2fr f (by omega)]
    exact h1fr f hf
  -- the new record is laid out at the old tail position
  have hrecord : recordAt q2.store q.config.arena_size (q.tail_aid, q.tail_offset) bytes := by
    constructor
    · unfold recLen
      have hbytes : ∀ j, j < 8 →
          q2.store (lenPos q.config.arena_size (q.tail_aid, q.tail_offset)).1
            ((lenPos q.config.arena_size (q.tail_aid, q.tail_offset)).2 + j) =
            leByte bytes.length j := by
        intro j hj
        have hlt : (lenPos q.config.arena_size (q.tail_aid, q.tail_offset)).2 + j <
            q.config.arena_size := by
          have := lenPos_snd_le q.config.arena_size (q.tail_aid, q.tail_offset) h8 ht
          omega
        have hflat := flat_lenPos_add q.config.arena_size (q.tail_aid, q.tail_offset) j ht hj
        rw [← flatStore_eq q2.store q.config.arena_size _ _ hlt]
        rw [h2fr _ (by omega)]
        rw [flatStore_eq q1.store q.config.arena_size _ _ hlt]
        exact h1len j hj
      rw [decodeLE_of_bytes 8 bytes.length _ _ hbytes]
      have h64 : (256 : Nat) ^ 8 = 2 ^ 64 := by norm_num
      rw [h64]
      exact Nat.mod_eq_of_lt hlen
    · intro i hi
      exact h2eff i hi
  -- old records are untouched
  have hchain2 : chain q2.store q.config.arena_size (q.head_aid, q.head_offset) ps
      (q.tail_aid, q.tail_offset) :=
    chain_frame q.store q2.store q.config.arena_size ps _ _ h8 hh hch hcombfr
  have happend := chain_append q2.store q.config.arena_size ps _ _ bytes hchain2 hlen hrecord
  have h2ta : q2.tail_aid =
      (afterPayload q.config.arena_size
        ((afterLen q.config.arena_size (q.tail_aid, q.tail_offset)).1,
         (afterLen q.config.arena_size (q.tail_aid, q.tail_offset)).2) bytes.length).1 :=
    congrArg Prod.fst h2tail
  have h2to : q2.tail_offset =
      (afterPayload q.config.arena_size
        ((afterLen q.config.arena_size (q.tail_aid, q.tail_offset)).1,
         (afterLen q.config.arena_size (q.tail_aid, q.tail_offset)).2) bytes.length).2 :=
    congrArg Prod.snd h2tail
  simp only [pushQ]
  rw [he1]
  dsimp only
  rw [he2]
  dsimp only
  refine ⟨_, rfl, ?_, ?_, ?_, ?_, ?_, ?_⟩
  · -- wellformedness with the appended payload
    unfold validQ set_tail_index
    dsimp only
    refine ⟨?_, ?_, ?_, ?_, ?_⟩
    · rw [h2cfg, h1cfg]; exact h8
    · rw [h2cfg, h1cfg, h2ho, h1ho]; exact hh
    · rw [h2cfg, h1cfg, h2to]
      exact afterPayload_snd_lt _ _ _ (by omega)
    · intro a ha
      rcases h2fi a ha with hle1 | hin2
      · rcases h1fi a (by rw [h1ta]; exact hle1) with hle0 | hin1
        · exact h2fm a (h1fm a (hfiles a hle0))
        · exact h2fm a hin1
      · exact hin2
    · rw [h2cfg, h1cfg, h2ha, h1ha, h2ho, h1ho]
      have : ((q2.tail_aid, q2.tail_offset) : Nat × Nat) =
          afterRecord q.config.arena_size (q.tail_aid, q.tail_offset) bytes.length := by
        rw [h2tail]
        unfold afterRecord
        rfl
      rw [show q2.tail_aid = (afterRecord q.config.arena_size
            (q.tail_aid, q.tail_offset) bytes.length).1 from congrArg Prod.fst this,
          show q2.tail_offset = (afterRecord q.config.arena_size
            (q.tail_aid, q.tail_offset) bytes.length).2 from congrArg Prod.snd this]
      exact happend
  · unfold set_tail_index; dsimp only; rw [h2ha, h1ha]
  · unfold set_tail_index; dsimp only; rw [h2ho, h1ho]
  · unfold set_tail_index; dsimp only; rw [h2cfg, h1cfg]
  · intro i hi
    unfold set_tail_index set_indexWord
    dsimp only
    rw [if_neg (by omega), if_neg (by omega)]
    rw [h2idx, h1idx]
  · unfold set_tail_index
    dsimp only
    rw [h2tail]
    unfold afterRecord
    rfl


/-! ### Whole-run lemmas -/

theorem validQ_reset (conf : Config) (h8 : 8 < conf.arena_size) :
    validQ (with_config_reset conf) [] := by
  unfold validQ with_config_reset chain
  dsimp only
  refine ⟨h8, by omega, by omega, ?_, rfl⟩
  intro a ha
  have : a = 0 := by omega
  subst this
  simp

theorem validQ_cache (q : BigQueue) (ps : List (List Nat)) (c : List Nat)
    (hv : validQ q ps) : validQ { q with cache := c } ps := hv

theorem pushAll_spec :
    ∀ (ps : List (List Nat)) (acc : List (List Nat)) (q : BigQueue),
      validQ q acc → (∀ p, p ∈ ps → p.length < 2 ^ 64) →
      ∃ q1, pushAll q ps = some q1 ∧ validQ q1 (acc ++ ps) := by
  intro ps
  induction ps with
  | nil =>
    intro acc q hv _
    exact ⟨q, rfl, by simpa using hv⟩
  | cons p ps ih =>
    intro acc q hv hl
    obtain ⟨q', he, hv', _⟩ := pushQ_spec q p acc hv (hl p (by simp))
    obtain ⟨q1, he1, hv1⟩ := ih (acc ++ [p]) q' hv' fun x hx => hl x (by simp [hx])
    refine ⟨q1, ?_, by simpa using hv1⟩
    simp only [pushAll]
    rw [he]
    dsimp only
    exact he1

theorem popAll_spec :
    ∀ (ps : List (List Nat)) (q : BigQueue), validQ q ps →
      ∃ q2, popAll q ps.length = some (ps, q2) ∧ validQ q2 [] := by
  intro ps
  induction ps with
  | nil => exact fun q hv => ⟨q, rfl, hv⟩
  | cons p ps ih =>
    intro q hv
    obtain ⟨q', he, hv', _⟩ := popQ_spec q p ps hv
    obtain ⟨q2, he2, hv2⟩ := ih q' hv'
    refine ⟨q2, ?_, hv2⟩
    show popAll q (ps.length + 1) = _
    simp only [popAll]
    rw [he]
    dsimp only
    rw [he2]
    rfl

theorem peekRepeat_spec (pl : List Nat) :
    ∀ (k : Nat) (q : BigQueue) (ps : List (List Nat)), validQ q (pl :: ps) →
      peekRepeat q k = some (List.replicate k pl) := by
  intro k
  induction k with
  | zero => intro q ps _; rfl
  | succ k ih =>
    intro q ps hv
    obtain ⟨c', he⟩ := peekQ_spec q pl ps hv
    simp only [peekRepeat]
    rw [he]
    dsimp only
    rw [ih { q with cache := c' } ps (validQ_cache q _ c' hv)]
    rfl


/-! ### Shape lemmas on arbitrary states (for the invariant claims) -/

theorem flip_head_shape (q : BigQueue) (aid : Nat) (qf : BigQueue)
    (h : flip_head_page_to q aid = some qf) :
    ∃ c, qf = { q with head_aid := aid, cache := c } := by
  unfold flip_head_page_to at h
  by_cases h1 : q.cache.contains aid = true
  · rw [if_pos h1] at h
    exact ⟨q.cache.erase aid, (Option.some.injEq _ _).mp h |>.symm⟩
  · rw [if_neg h1] at h
    by_cases h2 : q.files.contains aid = true
    · rw [if_pos h2] at h
      exact ⟨q.cache, (Option.some.injEq _ _).mp h |>.symm⟩
    · rw [if_neg h2] at h
      exact absurd h (by simp)

theorem read_lengthQ_shape (q : BigQueue)
    (h8 : 8 < q.config.arena_size) (hh : q.head_offset < q.config.arena_size) :
    ∃ ℓ a ho c,
      read_lengthQ q = (some ℓ, { q with head_aid := a, head_offset := ho, cache := c }) ∧
      ho < q.config.arena_size := by
  by_cases h1 : q.head_offset + 8 > q.config.arena_size
  · cases hf : flip_head_page_to q (q.head_aid + 1) with
    | some qf =>
      obtain ⟨cf, hcf⟩ := flip_head_shape q _ qf hf
      subst hcf
      simp only [read_lengthQ]
      rw [if_pos h1, hf]
      dsimp only
      rw [read_u64_pos _ _ _ (by omega)]
      dsimp only
      rw [if_neg (by simp only [beq_iff_eq]; omega)]
      exact ⟨_, _, _, _, rfl, h8⟩
    | none =>
      simp only [read_lengthQ]
      rw [if_pos h1, hf]
      dsimp only
      rw [read_u64_pos _ _ _ (by omega)]
      dsimp only
      rw [if_neg (by simp only [beq_iff_eq]; omega)]
      exact ⟨_, q.head_aid, 8, q.cache, rfl, h8⟩
  · have hle : q.head_offset + 8 ≤ q.config.arena_size := by omega
    by_cases h2 : q.head_offset + 8 = q.config.arena_size
    · cases hf : flip_head_page_to q (q.head_aid + 1) with
      | some qf =>
        obtain ⟨cf, hcf⟩ := flip_head_shape q _ qf hf
        subst hcf
        simp only [read_lengthQ]
        rw [if_neg h1]
        dsimp only
        rw [read_u64_pos _ _ _ hle]
        dsimp only
        rw [if_pos (by simp only [beq_iff_eq]; omega), hf]
        exact ⟨_, _, _, _, rfl, by omega⟩
      | none =>
        simp only [read_lengthQ]
        rw [if_neg h1]
        dsimp only
        rw [read_u64_pos _ _ _ hle]
        dsimp only
        rw [if_pos (by simp only [beq_iff_eq]; omega), hf]
        exact ⟨_, q.head_aid, 0, q.cache, rfl, by omega⟩
    · simp only [read_lengthQ]
      rw [if_neg h1]
      dsimp only
      rw [read_u64_pos _ _ _ hle]
      dsimp only
      rw [if_neg (by simp only [beq_iff_eq]; omega)]
      exact ⟨_, q.head_aid, q.head_offset + 8, q.cache, rfl, by omega⟩

theorem read_bytes_go_shape :
    ∀ (fuel : Nat) (q : BigQueue) (acc : List Nat) (i_offset i_length : Nat),
      8 < q.config.arena_size → i_offset ≤ q.config.arena_size →
      ∀ r, read_bytes_go fuel q acc i_offset i_length = some r →
      ∃ bs a ho c,
        r = (some bs, { q with head_aid := a, head_offset := ho, cache := c }) ∧
        ho < q.config.arena_size := by
  intro fuel
  induction fuel with
  | zero =>
    intro q acc i_offset i_length _ _ r hr
    simp [read_bytes_go] at hr
  | succ fuel ih =>
    intro q acc i_offset i_length h8 hio r hr
    simp only [read_bytes_go] at hr
    by_cases hstrad : i_offset + i_length > q.config.arena_size
    · rw [if_pos (by simpa using hstrad)] at hr
      rw [region_get_pos _ _ _ _ hio (le_refl _)] at hr
      dsimp only at hr
      cases hf : flip_head_page_to q (q.head_aid + 1) with
      | none => rw [hf] at hr; exact absurd hr (by simp)
      | some qf =>
        rw [hf] at hr
        dsimp only at hr
        obtain ⟨cf, hcf⟩ := flip_head_shape q _ qf hf
        subst hcf
        obtain ⟨bs, a, ho, c, hre, hho⟩ :=
          ih { q with head_aid := q.head_aid + 1, cache := cf } _ 0 _ h8 (by omega) r hr
        exact ⟨bs, a, ho, c, hre, hho⟩
    · rw [if_neg (by simpa using hstrad)] at hr
      rw [region_get_pos _ _ _ _ (by omega) (by omega)] at hr
      dsimp only at hr
      by_cases hexact : i_offset + i_length = q.config.arena_size
      · rw [if_pos (by simpa [beq_iff_eq] using hexact)] at hr
        cases hf : flip_head_page_to q (q.head_aid + 1) with
        | none => rw [hf] at hr; exact absurd hr (by simp)
        | some qf =>
          rw [hf] at hr
          dsimp only at hr
          obtain ⟨cf, hcf⟩ := flip_head_shape q _ qf hf
          subst hcf
          injection hr with hr2
          subst hr2
          exact ⟨_, _, _, _, rfl, by omega⟩
      · rw [if_neg (by simpa [beq_iff_eq] using hexact)] at hr
        injection hr with hr2
        subst hr2
        exact ⟨_, q.head_aid, i_offset + i_length, q.cache, rfl, by omega⟩


theorem pushQ_shape (q : BigQueue) (bytes : List Nat)
    (h8 : 8 < q.config.arena_size) (ht : q.tail_offset < q.config.arena_size) :
    ∃ q', pushQ q bytes = some (.ok (), q') ∧
      q'.config = q.config ∧ q'.head_aid = q.head_aid ∧ q'.head_offset = q.head_offset ∧
      q'.tail_offset < q.config.arena_size ∧
      q'.index = set_indexWord (set_indexWord q.index 2 q'.tail_aid) 3 q'.tail_offset := by
  obtain ⟨q1, he1, h1cfg, h1idx, h1ha, h1ho, h1to, h1ta, _, _, _, _⟩ :=
    write_length_spec q q.tail_offset bytes.length h8 ht
  obtain ⟨q2, he2, h2cfg, h2idx, h2ha, h2ho, h2tail, _, _, _, _⟩ :=
    write_bytesQ_spec q1
      (afterLen q.config.arena_size (q.tail_aid, q.tail_offset)).2 bytes
      (by rw [h1cfg]; exact h8)
      (by rw [h1cfg]; exact afterLen_snd_lt _ _ h8 ht)
  rw [h1cfg] at h2tail
  have h2to : q2.tail_offset < q.config.arena_size := by
    have := congrArg Prod.snd h2tail
    dsimp only at this
    rw [this]
    exact afterPayload_snd_lt _ _ _ (by omega)
  simp only [pushQ]
  rw [he1]
  dsimp only
  rw [he2]
  dsimp only
  refine ⟨_, rfl, ?_, ?_, ?_, ?_, ?_⟩
  · show q2.config = q.config
    rw [h2cfg, h1cfg]
  · show q2.head_aid = q.head_aid
    rw [h2ha, h1ha]
  · show q2.head_offset = q.head_offset
    rw [h2ho, h1ho]
  · show q2.tail_offset < q.config.arena_size
    exact h2to
  · show set_indexWord (set_indexWord q2.index 2 q2.tail_aid) 3 q2.tail_offset = _
    rw [h2idx, h1idx]
    rfl

theorem popQ_shape (q : BigQueue)
    (h8 : 8 < q.config.arena_size) (hh : q.head_offset < q.config.arena_size) :
    ∀ r q', popQ q = some (r, q') →
      (r = .error .QueueEmpty ∧ q' = q) ∨
      ∃ d, r = .ok d ∧ q'.config = q.config ∧ q'.tail_aid = q.tail_aid ∧
        q'.tail_offset = q.tail_offset ∧ q'.head_offset < q.config.arena_size ∧
        q'.index = set_indexWord (set_indexWord q.index 0 q'.head_aid) 1 q'.head_offset := by
  intro r q' hr
  unfold popQ at hr
  by_cases he : isEmptyQ q = true
  · rw [if_pos he] at hr
    injection hr with h
    injection h with hfst hsnd
    subst hfst
    subst hsnd
    exact Or.inl ⟨rfl, rfl⟩
  · rw [if_neg he] at hr
    obtain ⟨ℓ, a, ho, c, hrl, hho⟩ := read_lengthQ_shape q h8 hh
    rw [hrl] at hr
    dsimp only at hr
    cases hb : read_bytesQ { q with head_aid := a, head_offset := ho, cache := c } ℓ with
    | none => rw [hb] at hr; exact absurd hr (by simp)
    | some rr =>
      rw [hb] at hr
      obtain ⟨bs, a2, ho2, c2, hre, hho2⟩ :=
        read_bytes_go_shape (ℓ + 1) { q with head_aid := a, head_offset := ho, cache := c }
          [] ho ℓ h8 (le_of_lt hho) rr hb
      subst hre
      dsimp only at hr
      injection hr with h
      injection h with hfst hsnd
      subst hfst
      subst hsnd
      right
      exact ⟨bs, rfl, rfl, rfl, rfl, hho2, rfl⟩

theorem peekQ_shape (q : BigQueue)
    (h8 : 8 < q.config.arena_size) (hh : q.head_offset < q.config.arena_size) :
    ∀ r q', peekQ q = some (r, q') →
      (r = .error .QueueEmpty ∧ q' = q) ∨
      ∃ d c, r = .ok d ∧ q' = { q with cache := c } := by
  intro r q' hr
  unfold peekQ at hr
  by_cases he : isEmptyQ q = true
  · rw [if_pos he] at hr
    injection hr with h
    injection h with hfst hsnd
    subst hfst
    subst hsnd
    exact Or.inl ⟨rfl, rfl⟩
  · rw [if_neg he] at hr
    obtain ⟨ℓ, a, ho, c, hrl, hho⟩ := read_lengthQ_shape q h8 hh
    rw [hrl] at hr
    dsimp only at hr
    cases hb : read_bytesQ { q with head_aid := a, head_offset := ho, cache := c } ℓ with
    | none => rw [hb] at hr; exact absurd hr (by simp)
    | some rr =>
      rw [hb] at hr
      obtain ⟨bs, a2, ho2, c2, hre, hho2⟩ :=
        read_bytes_go_shape (ℓ + 1) { q with head_aid := a, head_offset := ho, cache := c }
          [] ho ℓ h8 (le_of_lt hho) rr hb
      subst hre
      dsimp only at hr
      injection hr with h
      injection h with hfst hsnd
      subst hfst
      subst hsnd
      right
      exact ⟨bs, c2, rfl, rfl⟩

theorem dequeueQ_shape (q : BigQueue)
    (h8 : 8 < q.config.arena_size) (hh : q.head_offset < q.config.arena_size) :
    ∀ r q', dequeueQ q = some (r, q') →
      (r = .error .QueueEmpty ∧ q' = q) ∨
      (r = .ok () ∧ q'.config = q.config ∧ q'.tail_aid = q.tail_aid ∧
        q'.tail_offset = q.tail_offset ∧ q'.head_offset < q.config.arena_size ∧
        q'.index = set_indexWord (set_indexWord q.index 0 q'.head_aid) 1 q'.head_offset) := by
  intro r q' hr
  unfold dequeueQ at hr
  by_cases he : isEmptyQ q = true
  · rw [if_pos he] at hr
    injection hr with h
    injection h with hfst hsnd
    subst hfst
    subst hsnd
    exact Or.inl ⟨rfl, rfl⟩
  · rw [if_neg he] at hr
    obtain ⟨ℓ, a, ho, c, hrl, hho⟩ := read_lengthQ_shape q h8 hh
    rw [hrl] at hr
    dsimp only at hr
    by_cases hc : ho + ℓ ≥ q.config.arena_size
    · rw [if_pos hc] at hr
      cases hf : flip_head_page_to { q with head_aid := a, head_offset := ho, cache := c }
          (a + 1) with
      | none => rw [hf] at hr; exact absurd hr (by simp)
      | some qf =>
        rw [hf] at hr
        dsimp only at hr
        obtain ⟨c2, hcf⟩ :=
          flip_head_shape { q with head_aid := a, head_offset := ho, cache := c } _ qf hf
        subst hcf
        injection hr with h
        injection h with hfst hsnd
        subst hfst
        subst hsnd
        right
        exact ⟨rfl, rfl, rfl, rfl, Nat.mod_lt _ (by omega), rfl⟩
    · rw [if_neg hc] at hr
      injection hr with h
      injection h with hfst hsnd
      subst hfst
      subst hsnd
      right
      exact ⟨rfl, rfl, rfl, rfl, Nat.mod_lt _ (by omega), rfl⟩


/-! ### `max_arenas_in_mem` is dead configuration: naturality lemmas -/

theorem setMam_flip_head (q : BigQueue) (m aid : Nat) :
    flip_head_page_to (setMam q m) aid =
      Option.map (fun x => setMam x m) (flip_head_page_to q aid) := by
  unfold flip_head_page_to setMam
  dsimp only
  by_cases h1 : q.cache.contains aid = true
  · rw [if_pos h1, if_pos h1]; rfl
  · rw [if_neg h1, if_neg h1]
    by_cases h2 : q.files.contains aid = true
    · rw [if_pos h2, if_pos h2]; rfl
    · rw [if_neg h2, if_neg h2]; rfl

theorem setMam_flip_tail (q : BigQueue) (m : Nat) :
    flip_tail_page_forward (setMam q m) = setMam (flip_tail_page_forward q) m := by
  unfold flip_tail_page_forward setMam
  dsimp only

/-- The same fact with the `setMam` record spelled out, for rewriting. -/
theorem flip_tail_mam_rec (q : BigQueue) (m : Nat) :
    flip_tail_page_forward { q with config := ⟨q.config.arena_size, m⟩ } =
      { flip_tail_page_forward q with config := ⟨q.config.arena_size, m⟩ } := by
  unfold flip_tail_page_forward
  dsimp only


theorem mamEq_setMam (q : BigQueue) (m : Nat) : mamEq (setMam q m) q :=
  ⟨rfl, rfl, rfl, rfl, rfl, rfl, rfl, rfl, rfl, rfl⟩

theorem flip_head_mamEq (x y : BigQueue) (aid : Nat) (h : mamEq x y) :
    mamEqO (flip_head_page_to x aid) (flip_head_page_to y aid) := by
  obtain ⟨h1, h2, h3, h4, h5, h6, h7, h8, h9, h10⟩ := h
  unfold flip_head_page_to
  rw [h8, h7]
  by_cases hc : y.cache.contains aid = true
  · rw [if_pos hc, if_pos hc]
    refine ⟨?_, ?_, ?_, ?_, ?_, ?_, ?_, ?_, ?_, ?_⟩ <;> (try dsimp only) <;>
      first | rfl | assumption
  · rw [if_neg hc, if_neg hc]
    by_cases hf : y.files.contains aid = true
    · rw [if_pos hf, if_pos hf]
      refine ⟨?_, ?_, ?_, ?_, ?_, ?_, ?_, ?_, ?_, ?_⟩ <;> (try dsimp only) <;>
        first | rfl | assumption
    · rw [if_neg hf, if_neg hf]
      trivial

theorem flip_tail_mamEq (x y : BigQueue) (h : mamEq x y) :
    mamEq (flip_tail_page_forward x) (flip_tail_page_forward y) := by
  obtain ⟨h1, h2, h3, h4, h5, h6, h7, h8, h9, h10⟩ := h
  unfold flip_tail_page_forward
  dsimp only
  rw [h1, h5, h7, h8, h9]
  refine ⟨?_, ?_, ?_, ?_, ?_, ?_, ?_, ?_, ?_, ?_⟩ <;> (try dsimp only) <;>
    first | rfl | assumption

theorem write_length_mamEq (x y : BigQueue) (off L : Nat) (h : mamEq x y) :
    (write_length x off L).1 = (write_length y off L).1 ∧
    mamEq (write_length x off L).2 (write_length y off L).2 := by
  have h10 := h.2.2.2.2.2.2.2.2.2
  simp only [write_length]
  rw [h10]
  by_cases hc : off + 8 > y.config.arena_size
  · rw [if_pos hc, if_pos hc]
    dsimp only
    have hf := flip_tail_mamEq x y h
    obtain ⟨g1, g2, g3, g4, g5, g6, g7, g8, g9, g10⟩ := hf
    rw [g1, g5]
    cases hw : write_u64 ((flip_tail_page_forward y).store (flip_tail_page_forward y).tail_aid)
        y.config.arena_size 0 L with
    | none =>
      by_cases h2 : (0 + 8 == y.config.arena_size) = true
      · rw [if_pos h2, if_pos h2]
        dsimp only
        refine ⟨rfl, flip_tail_mamEq _ _ ?_⟩
        refine ⟨?_, ?_, ?_, ?_, ?_, ?_, ?_, ?_, ?_, ?_⟩ <;> (try dsimp only) <;>
          first | rfl | assumption
      · rw [if_neg h2, if_neg h2]
        refine ⟨rfl, ?_⟩
        refine ⟨?_, ?_, ?_, ?_, ?_, ?_, ?_, ?_, ?_, ?_⟩ <;> (try dsimp only) <;>
          first | rfl | assumption
    | some w =>
      by_cases h2 : (0 + 8 == y.config.arena_size) = true
      · rw [if_pos h2, if_pos h2]
        dsimp only
        refine ⟨rfl, flip_tail_mamEq _ _ ?_⟩
        refine ⟨?_, ?_, ?_, ?_, ?_, ?_, ?_, ?_, ?_, ?_⟩ <;> (try dsimp only) <;>
          first | rfl | assumption
      · rw [if_neg h2, if_neg h2]
        refine ⟨rfl, ?_⟩
        refine ⟨?_, ?_, ?_, ?_, ?_, ?_, ?_, ?_, ?_, ?_⟩ <;> (try dsimp only) <;>
          first | rfl | assumption
  · rw [if_neg hc, if_neg hc]
    dsimp only
    obtain ⟨h1, h2, h3, h4, h5, h6, h7, h8, h9, h10b⟩ := h
    rw [h1, h5]
    cases hw : write_u64 (y.store y.tail_aid) y.config.arena_size off L with
    | none =>
      by_cases hb : (off + 8 == y.config.arena_size) = true
      · rw [if_pos hb, if_pos hb]
        dsimp only
        refine ⟨rfl, flip_tail_mamEq _ _ ?_⟩
        refine ⟨?_, ?_, ?_, ?_, ?_, ?_, ?_, ?_, ?_, ?_⟩ <;> (try dsimp only) <;>
          first | rfl | assumption
      · rw [if_neg hb, if_neg hb]
        refine ⟨rfl, ?_⟩
        refine ⟨?_, ?_, ?_, ?_, ?_, ?_, ?_, ?_, ?_, ?_⟩ <;> (try dsimp only) <;>
          first | rfl | assumption
    | some w =>
      by_cases hb : (off + 8 == y.config.arena_size) = true
      · rw [if_pos hb, if_pos hb]
        dsimp only
        refine ⟨rfl, flip_tail_mamEq _ _ ?_⟩
        refine ⟨?_, ?_, ?_, ?_, ?_, ?_, ?_, ?_, ?_, ?_⟩ <;> (try dsimp only) <;>
          first | rfl | assumption
      · rw [if_neg hb, if_neg hb]
        refine ⟨rfl, ?_⟩
        refine ⟨?_, ?_, ?_, ?_, ?_, ?_, ?_, ?_, ?_, ?_⟩ <;> (try dsimp only) <;>
          first | rfl | assumption


theorem write_bytes_go_mamEq (bytes : List Nat) :
    ∀ (fuel : Nat) (x y : BigQueue) (i_offset count i_length : Nat), mamEq x y →
      mamEqO (write_bytes_go bytes fuel x i_offset count i_length)
        (write_bytes_go bytes fuel y i_offset count i_length) := by
  intro fuel
  induction fuel with
  | zero => intros; trivial
  | succ fuel ih =>
    intro x y i_offset count i_length h
    obtain ⟨h1, h2, h3, h4, h5, h6, h7, h8, h9, h10⟩ := h
    simp only [write_bytes_go]
    rw [h10, h1, h5]
    by_cases hc : i_offset + i_length > y.config.arena_size
    · rw [if_pos hc, if_pos hc]
      cases listSlice bytes count (count + y.config.arena_size - i_offset) with
      | none => trivial
      | some piece =>
        dsimp only
        cases write_bytes_region (y.store y.tail_aid) y.config.arena_size i_offset piece with
        | none => trivial
        | some w =>
          dsimp only
          apply ih
          apply flip_tail_mamEq
          refine ⟨?_, ?_, ?_, ?_, ?_, ?_, ?_, ?_, ?_, ?_⟩ <;> (try dsimp only) <;>
            first | rfl | assumption
    · rw [if_neg hc, if_neg hc]
      cases listSlice bytes count bytes.length with
      | none => trivial
      | some piece =>
        dsimp only
        cases write_bytes_region (y.store y.tail_aid) y.config.arena_size i_offset piece with
        | none => trivial
        | some w =>
          dsimp only
          by_cases hb : (i_offset + i_length == y.config.arena_size) = true
          · rw [if_pos hb, if_pos hb]
            have hmid : mamEq
                { x with store := Function.update y.store y.tail_aid w, tail_aid := y.tail_aid }
                { y with store := Function.update y.store y.tail_aid w } := by
              refine ⟨?_, ?_, ?_, ?_, ?_, ?_, ?_, ?_, ?_, ?_⟩ <;> (try dsimp only) <;>
                first | rfl | assumption
            obtain ⟨g1, g2, g3, g4, g5, g6, g7, g8, g9, g10⟩ := flip_tail_mamEq _ _ hmid
            exact ⟨g1, g2, g3, g4, g5, rfl, g7, g8, g9, g10⟩
          · rw [if_neg hb, if_neg hb]
            refine ⟨?_, ?_, ?_, ?_, ?_, ?_, ?_, ?_, ?_, ?_⟩ <;> (try dsimp only) <;>
              first | rfl | assumption

theorem read_lengthQ_mamEq (x y : BigQueue) (h : mamEq x y) :
    (read_lengthQ x).1 = (read_lengthQ y).1 ∧ mamEq (read_lengthQ x).2 (read_lengthQ y).2 := by
  have hflip := flip_head_mamEq x y (x.head_aid + 1) h
  obtain ⟨h1, h2, h3, h4, h5, h6, h7, h8, h9, h10⟩ := h
  rw [h3] at hflip
  simp only [read_lengthQ]
  rw [h10, h4, h3]
  by_cases hc : y.head_offset + 8 > y.config.arena_size
  · rw [if_pos hc, if_pos hc]
    cases hfx : flip_head_page_to x (y.head_aid + 1) with
    | none =>
      cases hfy : flip_head_page_to y (y.head_aid + 1) with
      | none =>
        rw [hfx, hfy] at hflip
        dsimp only
        rw [h1, h3]
        cases read_u64 (y.store y.head_aid) y.config.arena_size 0 with
        | none =>
          dsimp only
          exact ⟨rfl, h1, h2, h3, h4, h5, h6, h7, h8, h9, h10⟩
        | some L =>
          dsimp only
          by_cases hb : (8 == y.config.arena_size) = true
          · rw [if_pos hb, if_pos hb]
            cases hgx : flip_head_page_to x (x.head_aid + 1) with
            | none =>
              have hflip2 := flip_head_mamEq x y (x.head_aid + 1) ⟨h1, h2, h3, h4, h5, h6, h7, h8, h9, h10⟩
              rw [h3] at hflip2
              cases hgy : flip_head_page_to y (y.head_aid + 1) with
              | none =>
                rw [show x.head_aid + 1 = y.head_aid + 1 from by rw [h3]] at hgx
                rw [hgx] at hflip2 ⊢
                rw [hgy] at hflip2
                dsimp only
                refine ⟨rfl, ?_, ?_, ?_, ?_, ?_, ?_, ?_, ?_, ?_, ?_⟩ <;> first | rfl | assumption
              | some qy =>
                rw [show x.head_aid + 1 = y.head_aid + 1 from by rw [h3]] at hgx
                rw [hgx, hgy] at hflip2
                exact absurd hflip2 (by simp [mamEqO])
            | some qx =>
              have hflip2 := flip_head_mamEq x y (x.head_aid + 1) ⟨h1, h2, h3, h4, h5, h6, h7, h8, h9, h10⟩
              rw [h3] at hflip2
              cases hgy : flip_head_page_to y (y.head_aid + 1) with
              | none =>
                rw [show x.head_aid + 1 = y.head_aid + 1 from by rw [h3]] at hgx
                rw [hgx, hgy] at hflip2
                exact absurd hflip2 (by simp [mamEqO])
              | some qy =>
                rw [show x.head_aid + 1 = y.head_aid + 1 from by rw [h3]] at hgx
                rw [hgx] at hflip2 ⊢
                rw [hgy] at hflip2
                dsimp only
                obtain ⟨g1, g2, g3, g4, g5, g6, g7, g8, g9, g10⟩ := hflip2
                refine ⟨rfl, ?_, ?_, ?_, ?_, ?_, ?_, ?_, ?_, ?_, ?_⟩ <;> first | rfl | assumption
          · rw [if_neg hb, if_neg hb]
            refine ⟨rfl, ?_, ?_, ?_, ?_, ?_, ?_, ?_, ?_, ?_, ?_⟩ <;> first | rfl | assumption
      | some qy =>
        rw [hfx, hfy] at hflip
        exact absurd hflip (by simp [mamEqO])
    | some qx =>
      cases hfy : flip_head_page_to y (y.head_aid + 1) with
      | none =>
        rw [hfx, hfy] at hflip
        exact absurd hflip (by simp [mamEqO])
      | some qy =>
        rw [hfx, hfy] at hflip
        dsimp only
        obtain ⟨g1, g2, g3, g4, g5, g6, g7, g8, g9, g10⟩ := hflip
        rw [g1, g3]
        cases read_u64 (qy.store qy.head_aid) y.config.arena_size 0 with
        | none =>
          dsimp only
          exact ⟨rfl, g1, g2, g3, g4, g5, g6, g7, g8, g9, g10⟩
        | some L =>
          dsimp only
          by_cases hb : (8 == y.config.arena_size) = true
          · rw [if_pos hb, if_pos hb]
            have hflip2 := flip_head_mamEq qx qy (qx.head_aid + 1)
              ⟨g1, g2, g3, g4, g5, g6, g7, g8, g9, g10⟩
            rw [g3] at hflip2
            cases hgx : flip_head_page_to qx (qy.head_aid + 1) with
            | none =>
              cases hgy : flip_head_page_to qy (qy.head_aid + 1) with
              | none =>
                rw [hgx, hgy] at hflip2
                dsimp only
                refine ⟨rfl, ?_, ?_, ?_, ?_, ?_, ?_, ?_, ?_, ?_, ?_⟩ <;> first | rfl | assumption
              | some ry =>
                rw [hgx, hgy] at hflip2
                exact absurd hflip2 (by simp [mamEqO])
            | some rx =>
              cases hgy : flip_head_page_to qy (qy.head_aid + 1) with
              | none =>
                rw [hgx, hgy] at hflip2
                exact absurd hflip2 (by simp [mamEqO])
              | some ry =>
                rw [hgx, hgy] at hflip2
                dsimp only
                obtain ⟨k1, k2, k3, k4, k5, k6, k7, k8, k9, k10⟩ := hflip2
                refine ⟨rfl, ?_, ?_, ?_, ?_, ?_, ?_, ?_, ?_, ?_, ?_⟩ <;> first | rfl | assumption
          · rw [if_neg hb, if_neg hb]
            refine ⟨rfl, ?_, ?_, ?_, ?_, ?_, ?_, ?_, ?_, ?_, ?_⟩ <;> first | rfl | assumption
  · rw [if_neg hc, if_neg hc]
    dsimp only
    rw [h1, h3]
    cases read_u64 (y.store y.head_aid) y.config.arena_size y.head_offset with
    | none =>
      dsimp only
      exact ⟨rfl, h1, h2, h3, h4, h5, h6, h7, h8, h9, h10⟩
    | some L =>
      dsimp only
      by_cases hb : (y.head_offset + 8 == y.config.arena_size) = true
      · rw [if_pos hb, if_pos hb]
        have hflip2 := flip_head_mamEq x y (x.head_aid + 1)
          ⟨h1, h2, h3, h4, h5, h6, h7, h8, h9, h10⟩
        rw [h3] at hflip2
        cases hgx : flip_head_page_to x (y.head_aid + 1) with
        | none =>
          cases hgy : flip_head_page_to y (y.head_aid + 1) with
          | none =>
            rw [hgx, hgy] at hflip2
            dsimp only
            refine ⟨rfl, ?_, ?_, ?_, ?_, ?_, ?_, ?_, ?_, ?_, ?_⟩ <;> first | rfl | assumption
          | some ry =>
            rw [hgx, hgy] at hflip2
            exact absurd hflip2 (by simp [mamEqO])
        | some rx =>
          cases hgy : flip_head_page_to y (y.head_aid + 1) with
          | none =>
            rw [hgx, hgy] at hflip2
            exact absurd hflip2 (by simp [mamEqO])
          | some ry =>
            rw [hgx, hgy] at hflip2
            dsimp only
            obtain ⟨k1, k2, k3, k4, k5, k6, k7, k8, k9, k10⟩ := hflip2
            refine ⟨rfl, ?_, ?_, ?_, ?_, ?_, ?_, ?_, ?_, ?_, ?_⟩ <;> first | rfl | assumption
      · rw [if_neg hb, if_neg hb]
        refine ⟨rfl, ?_, ?_, ?_, ?_, ?_, ?_, ?_, ?_, ?_, ?_⟩ <;> first | rfl | assumption

theorem read_bytes_go_mamEq :
    ∀ (fuel : Nat) (x y : BigQueue) (acc : List Nat) (i_offset i_length : Nat), mamEq x y →
      mamEqR (read_bytes_go fuel x acc i_offset i_length)
        (read_bytes_go fuel y acc i_offset i_length) := by
  intro fuel
  induction fuel with
  | zero => intros; trivial
  | succ fuel ih =>
    intro x y acc i_offset i_length h
    obtain ⟨h1, h2, h3, h4, h5, h6, h7, h8, h9, h10⟩ := h
    simp only [read_bytes_go]
    rw [h10, h1, h3]
    by_cases hc : i_offset + i_length > y.config.arena_size
    · rw [if_pos hc, if_pos hc]
      cases region_get (y.store y.head_aid) y.config.arena_size i_offset y.config.arena_size with
      | none =>
        exact ⟨rfl, h1, h2, h3, h4, h5, h6, h7, h8, h9, h10⟩
      | some slice =>
        dsimp only
        have hflip := flip_head_mamEq x y (y.head_aid + 1)
          ⟨h1, h2, h3, h4, h5, h6, h7, h8, h9, h10⟩
        cases hfx : flip_head_page_to x (y.head_aid + 1) with
        | none =>
          cases hfy : flip_head_page_to y (y.head_aid + 1) with
          | none => trivial
          | some qy =>
            rw [hfx, hfy] at hflip
            exact absurd hflip (by simp [mamEqO])
        | some qx =>
          cases hfy : flip_head_page_to y (y.head_aid + 1) with
          | none =>
            rw [hfx, hfy] at hflip
            exact absurd hflip (by simp [mamEqO])
          | some qy =>
            rw [hfx, hfy] at hflip
            dsimp only
            exact ih qx qy (acc ++ slice) 0 (i_length - slice.length) hflip
    · rw [if_neg hc, if_neg hc]
      cases region_get (y.store y.head_aid) y.config.arena_size i_offset (i_offset + i_length) with
      | none =>
        exact ⟨rfl, h1, h2, h3, h4, h5, h6, h7, h8, h9, h10⟩
      | some slice =>
        dsimp only
        by_cases hb : (i_offset + i_length == y.config.arena_size) = true
        · rw [if_pos hb, if_pos hb]
          have hflip := flip_head_mamEq x y (y.head_aid + 1)
            ⟨h1, h2, h3, h4, h5, h6, h7, h8, h9, h10⟩
          cases hfx : flip_head_page_to x (y.head_aid + 1) with
          | none =>
            cases hfy : flip_head_page_to y (y.head_aid + 1) with
            | none => trivial
            | some qy =>
              rw [hfx, hfy] at hflip
              exact absurd hflip (by simp [mamEqO])
          | some qx =>
            cases hfy : flip_head_page_to y (y.head_aid + 1) with
            | none =>
              rw [hfx, hfy] at hflip
              exact absurd hflip (by simp [mamEqO])
            | some qy =>
              rw [hfx, hfy] at hflip
              dsimp only
              obtain ⟨g1, g2, g3, g4, g5, g6, g7, g8, g9, g10⟩ := hflip
              refine ⟨rfl, ?_, ?_, ?_, ?_, ?_, ?_, ?_, ?_, ?_, ?_⟩ <;> first | rfl | assumption
        · rw [if_neg hb, if_neg hb]
          refine ⟨rfl, ?_, ?_, ?_, ?_, ?_, ?_, ?_, ?_, ?_, ?_⟩ <;> first | rfl | assumption

theorem set_head_index_mamEq (x y : BigQueue) (aid off : Nat) (h : mamEq x y) :
    mamEq (set_head_index x aid off) (set_head_index y aid off) := by
  obtain ⟨h1, h2, h3, h4, h5, h6, h7, h8, h9, h10⟩ := h
  unfold set_head_index
  refine ⟨?_, ?_, ?_, ?_, ?_, ?_, ?_, ?_, ?_, ?_⟩ <;> (try dsimp only) <;>
    first | rfl | (rw [h2]) | assumption

theorem set_tail_index_mamEq (x y : BigQueue) (aid off : Nat) (h : mamEq x y) :
    mamEq (set_tail_index x aid off) (set_tail_index y aid off) := by
  obtain ⟨h1, h2, h3, h4, h5, h6, h7, h8, h9, h10⟩ := h
  unfold set_tail_index
  refine ⟨?_, ?_, ?_, ?_, ?_, ?_, ?_, ?_, ?_, ?_⟩ <;> (try dsimp only) <;>
    first | rfl | (rw [h2]) | assumption

theorem isEmptyQ_mamEq (x y : BigQueue) (h : mamEq x y) : isEmptyQ x = isEmptyQ y := by
  obtain ⟨h1, h2, h3, h4, h5, h6, h7, h8, h9, h10⟩ := h
  unfold isEmptyQ; rw [h3, h4, h5, h6]

theorem pushQ_mamEq (x y : BigQueue) (bytes : List Nat) (h : mamEq x y) :
    mamEqP (pushQ x bytes) (pushQ y bytes) := by
  have h6 := h.2.2.2.2.2.1
  simp only [pushQ, write_bytesQ]
  rw [h6]
  have hwl := write_length_mamEq x y y.tail_offset bytes.length h
  rw [hwl.1]
  have hwb := write_bytes_go_mamEq bytes (bytes.length + 1)
    (write_length x y.tail_offset bytes.length).2 (write_length y y.tail_offset bytes.length).2
    (write_length y y.tail_offset bytes.length).1 0 bytes.length hwl.2
  cases hbx : write_bytes_go bytes (bytes.length + 1)
      (write_length x y.tail_offset bytes.length).2
      (write_length y y.tail_offset bytes.length).1 0 bytes.length with
  | none =>
    cases hby : write_bytes_go bytes (bytes.length + 1)
        (write_length y y.tail_offset bytes.length).2
        (write_length y y.tail_offset bytes.length).1 0 bytes.length with
    | none => trivial
    | some qy2 =>
      rw [hbx, hby] at hwb
      exact absurd hwb (by simp [mamEqO])
  | some qx2 =>
    cases hby : write_bytes_go bytes (bytes.length + 1)
        (write_length y y.tail_offset bytes.length).2
        (write_length y y.tail_offset bytes.length).1 0 bytes.length with
    | none =>
      rw [hbx, hby] at hwb
      exact absurd hwb (by simp [mamEqO])
    | some qy2 =>
      rw [hbx, hby] at hwb
      dsimp only
      have g5 := hwb.2.2.2.2.1
      have g6 := hwb.2.2.2.2.2.1
      rw [g5, g6]
      exact ⟨rfl, set_tail_index_mamEq qx2 qy2 qy2.tail_aid qy2.tail_offset hwb⟩

theorem popQ_mamEq (x y : BigQueue) (h : mamEq x y) : mamEqP (popQ x) (popQ y) := by
  have hq := h
  obtain ⟨h1, h2, h3, h4, h5, h6, h7, h8, h9, h10⟩ := h
  simp only [popQ]
  rw [isEmptyQ_mamEq x y hq]
  by_cases he : isEmptyQ y = true
  · rw [if_pos he, if_pos he]
    exact ⟨rfl, hq⟩
  · rw [if_neg he, if_neg he]
    have hrl := read_lengthQ_mamEq x y hq
    cases hlx : read_lengthQ x with
    | mk ox qx1 =>
      cases hly : read_lengthQ y with
      | mk oy qy1 =>
        rw [hlx, hly] at hrl
        dsimp only at hrl
        obtain ⟨e0, e⟩ := hrl
        subst e0
        cases ox with
        | none => exact ⟨rfl, e⟩
        | some L =>
          dsimp only
          simp only [read_bytesQ]
          have g4 := e.2.2.2.1
          rw [g4]
          have hrb := read_bytes_go_mamEq (L + 1) qx1 qy1 [] qy1.head_offset L e
          cases hbx : read_bytes_go (L + 1) qx1 [] qy1.head_offset L with
          | none =>
            cases hby : read_bytes_go (L + 1) qy1 [] qy1.head_offset L with
            | none => trivial
            | some r =>
              rw [hbx, hby] at hrb
              exact absurd hrb (by simp [mamEqR])
          | some rx =>
            cases hby : read_bytes_go (L + 1) qy1 [] qy1.head_offset L with
            | none =>
              rw [hbx, hby] at hrb
              exact absurd hrb (by simp [mamEqR])
            | some ry =>
              rw [hbx, hby] at hrb
              cases rx with
              | mk orx qx2 =>
                cases ry with
                | mk ory qy2 =>
                  simp only [mamEqR] at hrb
                  obtain ⟨k0, k⟩ := hrb
                  subst k0
                  cases orx with
                  | none => exact ⟨rfl, k⟩
                  | some data =>
                    dsimp only
                    have m3 := k.2.2.1
                    have m4 := k.2.2.2.1
                    rw [m3, m4]
                    exact ⟨rfl, set_head_index_mamEq qx2 qy2 qy2.head_aid qy2.head_offset k⟩

theorem peekQ_mamEq (x y : BigQueue) (h : mamEq x y) : mamEqP (peekQ x) (peekQ y) := by
  have hq := h
  obtain ⟨h1, h2, h3, h4, h5, h6, h7, h8, h9, h10⟩ := h
  simp only [peekQ]
  rw [isEmptyQ_mamEq x y hq]
  by_cases he : isEmptyQ y = true
  · rw [if_pos he, if_pos he]
    exact ⟨rfl, hq⟩
  · rw [if_neg he, if_neg he]
    rw [h3, h4]
    have hrl := read_lengthQ_mamEq x y hq
    cases hlx : read_lengthQ x with
    | mk ox qx1 =>
      cases hly : read_lengthQ y with
      | mk oy qy1 =>
        rw [hlx, hly] at hrl
        dsimp only at hrl
        obtain ⟨e0, e⟩ := hrl
        subst e0
        cases ox with
        | none => exact ⟨rfl, e⟩
        | some L =>
          dsimp only
          simp only [read_bytesQ]
          have g4 := e.2.2.2.1
          rw [g4]
          have hrb := read_bytes_go_mamEq (L + 1) qx1 qy1 [] qy1.head_offset L e
          cases hbx : read_bytes_go (L + 1) qx1 [] qy1.head_offset L with
          | none =>
            cases hby : read_bytes_go (L + 1) qy1 [] qy1.head_offset L with
            | none => trivial
            | some r =>
              rw [hbx, hby] at hrb
              exact absurd hrb (by simp [mamEqR])
          | some rx =>
            cases hby : read_bytes_go (L + 1) qy1 [] qy1.head_offset L with
            | none =>
              rw [hbx, hby] at hrb
              exact absurd hrb (by simp [mamEqR])
            | some ry =>
              rw [hbx, hby] at hrb
              cases rx with
              | mk orx qx2 =>
                cases ry with
                | mk ory qy2 =>
                  simp only [mamEqR] at hrb
                  obtain ⟨k0, k⟩ := hrb
                  subst k0
                  cases orx with
                  | none => exact ⟨rfl, k⟩
                  | some data =>
                    dsimp only
                    refine ⟨rfl, ?_⟩
                    obtain ⟨m1, m2, m3, m4, m5, m6, m7, m8, m9, m10⟩ := k
                    refine ⟨?_, ?_, ?_, ?_, ?_, ?_, ?_, ?_, ?_, ?_⟩ <;> (try dsimp only) <;>
                      first | rfl | assumption

theorem dequeueQ_mamEq (x y : BigQueue) (h : mamEq x y) :
    mamEqP (dequeueQ x) (dequeueQ y) := by
  have hq := h
  simp only [dequeueQ]
  rw [isEmptyQ_mamEq x y hq]
  by_cases he : isEmptyQ y = true
  · rw [if_pos he, if_pos he]
    exact ⟨rfl, hq⟩
  · rw [if_neg he, if_neg he]
    have hrl := read_lengthQ_mamEq x y hq
    cases hlx : read_lengthQ x with
    | mk ox qx1 =>
      cases hly : read_lengthQ y with
      | mk oy qy1 =>
        rw [hlx, hly] at hrl
        dsimp only at hrl
        obtain ⟨e0, e⟩ := hrl
        subst e0
        cases ox with
        | none => exact ⟨rfl, e⟩
        | some L =>
          dsimp only
          have g3 := e.2.2.1
          have g4 := e.2.2.2.1
          have g10 := e.2.2.2.2.2.2.2.2.2
          rw [g3, g4, g10]
          by_cases hc : qy1.head_offset + L ≥ qy1.config.arena_size
          · rw [if_pos hc, if_pos hc]
            have hflip := flip_head_mamEq qx1 qy1 (qy1.head_aid + 1) e
            cases hfx : flip_head_page_to qx1 (qy1.head_aid + 1) with
            | none =>
              cases hfy : flip_head_page_to qy1 (qy1.head_aid + 1) with
              | none => trivial
              | some r =>
                rw [hfx, hfy] at hflip
                exact absurd hflip (by simp [mamEqO])
            | some qx2 =>
              cases hfy : flip_head_page_to qy1 (qy1.head_aid + 1) with
              | none =>
                rw [hfx, hfy] at hflip
                exact absurd hflip (by simp [mamEqO])
              | some qy2 =>
                rw [hfx, hfy] at hflip
                dsimp only
                exact ⟨rfl, set_head_index_mamEq qx2 qy2 (qy1.head_aid + 1)
                  ((qy1.head_offset + L - qy1.config.arena_size) % qy1.config.arena_size) hflip⟩
          · rw [if_neg hc, if_neg hc]
            exact ⟨rfl, set_head_index_mamEq qx1 qy1 qy1.head_aid
              ((qy1.head_offset + L) % qy1.config.arena_size) e⟩

theorem stepOp_mamEq (op : Op) (x y : BigQueue) (h : mamEq x y) :
    mamEqS (stepOp op x) (stepOp op y) := by
  cases op with
  | push bs =>
    have hp := pushQ_mamEq x y bs h
    simp only [stepOp]
    cases hpx : pushQ x bs with
    | none =>
      cases hpy : pushQ y bs with
      | none => trivial
      | some r =>
        rw [hpx, hpy] at hp
        exact absurd hp (by simp [mamEqP])
    | some rx =>
      cases hpy : pushQ y bs with
      | none =>
        rw [hpx, hpy] at hp
        exact absurd hp (by simp [mamEqP])
      | some ry =>
        rw [hpx, hpy] at hp
        obtain ⟨ex, qx2⟩ := rx
        obtain ⟨ey, qy2⟩ := ry
        simp only [mamEqP] at hp
        obtain ⟨e0, e⟩ := hp
        subst e0
        cases ex with
        | ok u => exact ⟨rfl, e⟩
        | error er => exact ⟨rfl, e⟩
  | pop =>
    have hp := popQ_mamEq x y h
    simp only [stepOp]
    cases hpx : popQ x with
    | none =>
      cases hpy : popQ y with
      | none => trivial
      | some r =>
        rw [hpx, hpy] at hp
        exact absurd hp (by simp [mamEqP])
    | some rx =>
      cases hpy : popQ y with
      | none =>
        rw [hpx, hpy] at hp
        exact absurd hp (by simp [mamEqP])
      | some ry =>
        rw [hpx, hpy] at hp
        obtain ⟨ex, qx2⟩ := rx
        obtain ⟨ey, qy2⟩ := ry
        simp only [mamEqP] at hp
        obtain ⟨e0, e⟩ := hp
        subst e0
        cases ex with
        | ok d => exact ⟨rfl, e⟩
        | error er => exact ⟨rfl, e⟩
  | peek =>
    have hp := peekQ_mamEq x y h
    simp only [stepOp]
    cases hpx : peekQ x with
    | none =>
      cases hpy : peekQ y with
      | none => trivial
      | some r =>
        rw [hpx, hpy] at hp
        exact absurd hp (by simp [mamEqP])
    | some rx =>
      cases hpy : peekQ y with
      | none =>
        rw [hpx, hpy] at hp
        exact absurd hp (by simp [mamEqP])
      | some ry =>
        rw [hpx, hpy] at hp
        obtain ⟨ex, qx2⟩ := rx
        obtain ⟨ey, qy2⟩ := ry
        simp only [mamEqP] at hp
        obtain ⟨e0, e⟩ := hp
        subst e0
        cases ex with
        | ok d => exact ⟨rfl, e⟩
        | error er => exact ⟨rfl, e⟩
  | dequeue =>
    have hp := dequeueQ_mamEq x y h
    simp only [stepOp]
    cases hpx : dequeueQ x with
    | none =>
      cases hpy : dequeueQ y with
      | none => trivial
      | some r =>
        rw [hpx, hpy] at hp
        exact absurd hp (by simp [mamEqP])
    | some rx =>
      cases hpy : dequeueQ y with
      | none =>
        rw [hpx, hpy] at hp
        exact absurd hp (by simp [mamEqP])
      | some ry =>
        rw [hpx, hpy] at hp
        obtain ⟨ex, qx2⟩ := rx
        obtain ⟨ey, qy2⟩ := ry
        simp only [mamEqP] at hp
        obtain ⟨e0, e⟩ := hp
        subst e0
        cases ex with
        | ok u => exact ⟨rfl, e⟩
        | error er => exact ⟨rfl, e⟩

theorem runTrace_mamEq (ops : List Op) : ∀ (x y : BigQueue), mamEq x y →
    mamEqT (runTrace x ops) (runTrace y ops) := by
  induction ops with
  | nil => intro x y h; exact ⟨rfl, h⟩
  | cons op ops ih =>
    intro x y h
    have hs := stepOp_mamEq op x y h
    simp only [runTrace]
    cases hsx : stepOp op x with
    | none =>
      cases hsy : stepOp op y with
      | none => trivial
      | some r =>
        rw [hsx, hsy] at hs
        exact absurd hs (by simp [mamEqS])
    | some rx =>
      cases hsy : stepOp op y with
      | none =>
        rw [hsx, hsy] at hs
        exact absurd hs (by simp [mamEqS])
      | some ry =>
        rw [hsx, hsy] at hs
        obtain ⟨ox, qx2⟩ := rx
        obtain ⟨oy, qy2⟩ := ry
        simp only [mamEqS] at hs
        obtain ⟨e0, e⟩ := hs
        subst e0
        dsimp only
        have hih := ih qx2 qy2 e
        cases hrx : runTrace qx2 ops with
        | none =>
          cases hry : runTrace qy2 ops with
          | none => trivial
          | some r =>
            rw [hrx, hry] at hih
            exact absurd hih (by simp [mamEqT])
        | some rx2 =>
          cases hry : runTrace qy2 ops with
          | none =>
            rw [hrx, hry] at hih
            exact absurd hih (by simp [mamEqT])
          | some ry2 =>
            rw [hrx, hry] at hih
            dsimp only [Option.map]
            exact ⟨by rw [hih.1], hih.2⟩

/-! ### Trace invariants: offset bounds and the index mirror -/

theorem stepOp_inv (op : Op) (q : BigQueue) (o : OpOut) (q' : BigQueue)
    (h8 : 8 < q.config.arena_size) (hh : q.head_offset < q.config.arena_size)
    (ht : q.tail_offset < q.config.arena_size)
    (h : stepOp op q = some (o, q')) :
    q'.config = q.config ∧ q'.head_offset < q.config.arena_size ∧
      q'.tail_offset < q.config.arena_size := by
  cases op with
  | push bs =>
    obtain ⟨qp, hp, hcfg, hha, hho, htl, hidx⟩ := pushQ_shape q bs h8 ht
    simp only [stepOp] at h
    rw [hp] at h
    dsimp only at h
    injection h with h'
    injection h' with ho2 hq
    subst hq
    exact ⟨hcfg, by rw [hho]; exact hh, htl⟩
  | pop =>
    simp only [stepOp] at h
    cases hp : popQ q with
    | none =>
      rw [hp] at h
      exact absurd h (by simp)
    | some r =>
      rw [hp] at h
      obtain ⟨rr, qq⟩ := r
      rcases popQ_shape q h8 hh rr qq hp with ⟨hre, hqq⟩ | ⟨d, hrd, hcfg, hta, hto, hhb, _⟩
      · subst hre
        subst hqq
        dsimp only at h
        injection h with h'
        injection h' with ho2 hq
        subst hq
        exact ⟨rfl, hh, ht⟩
      · subst hrd
        dsimp only at h
        injection h with h'
        injection h' with ho2 hq
        subst hq
        exact ⟨hcfg, hhb, by rw [hto]; exact ht⟩
  | peek =>
    simp only [stepOp] at h
    cases hp : peekQ q with
    | none =>
      rw [hp] at h
      exact absurd h (by simp)
    | some r =>
      rw [hp] at h
      obtain ⟨rr, qq⟩ := r
      rcases peekQ_shape q h8 hh rr qq hp with ⟨hre, hqq⟩ | ⟨d, c, hrd, hqq⟩
      · subst hre
        subst hqq
        dsimp only at h
        injection h with h'
        injection h' with ho2 hq
        subst hq
        exact ⟨rfl, hh, ht⟩
      · subst hrd
        subst hqq
        dsimp only at h
        injection h with h'
        injection h' with ho2 hq
        subst hq
        exact ⟨rfl, hh, ht⟩
  | dequeue =>
    simp only [stepOp] at h
    cases hp : dequeueQ q with
    | none =>
      rw [hp] at h
      exact absurd h (by simp)
    | some r =>
      rw [hp] at h
      obtain ⟨rr, qq⟩ := r
      rcases dequeueQ_shape q h8 hh rr qq hp with ⟨hre, hqq⟩ | ⟨hrd, hcfg, hta, hto, hhb, _⟩
      · subst hre
        subst hqq
        dsimp only at h
        injection h with h'
        injection h' with ho2 hq
        subst hq
        exact ⟨rfl, hh, ht⟩
      · subst hrd
        dsimp only at h
        injection h with h'
        injection h' with ho2 hq
        subst hq
        exact ⟨hcfg, hhb, by rw [hto]; exact ht⟩

theorem runTrace_inv (ops : List Op) : ∀ (q : BigQueue),
    8 < q.config.arena_size → q.head_offset < q.config.arena_size →
    q.tail_offset < q.config.arena_size →
    ∀ r qf, runTrace q ops = some (r, qf) →
      qf.config = q.config ∧ qf.head_offset < q.config.arena_size ∧
        qf.tail_offset < q.config.arena_size := by
  induction ops with
  | nil =>
    intro q h8 hh ht r qf h
    simp only [runTrace] at h
    injection h with h'
    injection h' with hr hq
    subst hq
    exact ⟨rfl, hh, ht⟩
  | cons op ops ih =>
    intro q h8 hh ht r qf h
    simp only [runTrace] at h
    cases hs : stepOp op q with
    | none =>
      rw [hs] at h
      exact absurd h (by simp)
    | some p =>
      rw [hs] at h
      obtain ⟨o, q1⟩ := p
      dsimp only at h
      obtain ⟨hcfg, hh1, ht1⟩ := stepOp_inv op q o q1 h8 hh ht hs
      have hasz : q1.config.arena_size = q.config.arena_size := by rw [hcfg]
      cases hr : runTrace q1 ops with
      | none =>
        rw [hr] at h
        exact absurd h (by simp)
      | some r2 =>
        rw [hr] at h
        obtain ⟨os, q2⟩ := r2
        have hi := ih q1 (by rw [hasz]; exact h8) (by rw [hasz]; exact hh1)
          (by rw [hasz]; exact ht1) os q2 hr
        dsimp only [Option.map] at h
        injection h with h'
        injection h' with hr2 hq
        subst hq
        refine ⟨by rw [hi.1, hcfg], ?_, ?_⟩
        · rw [← hasz]; exact hi.2.1
        · rw [← hasz]; exact hi.2.2

theorem indexOK_set_tail (q q' : BigQueue)
    (hidx : q'.index = set_indexWord (set_indexWord q.index 2 q'.tail_aid) 3 q'.tail_offset)
    (hha : q'.head_aid = q.head_aid) (hho : q'.head_offset = q.head_offset)
    (h : indexOK q) : indexOK q' := by
  intro i hi
  rw [hidx, hha, hho]
  unfold set_indexWord
  by_cases h3 : 3 * 8 ≤ i ∧ i < 3 * 8 + 8
  · rw [if_pos h3]
    unfold encodeIdx
    have h8f : ¬ i < 8 := by omega
    have h16f : ¬ i < 16 := by omega
    have h24f : ¬ i < 24 := by omega
    simp only [if_neg h8f, if_neg h16f, if_neg h24f]
  · rw [if_neg h3]
    by_cases h2 : 2 * 8 ≤ i ∧ i < 2 * 8 + 8
    · rw [if_pos h2]
      unfold encodeIdx
      have h8f : ¬ i < 8 := by omega
      have h16f : ¬ i < 16 := by omega
      have h24t : i < 24 := by omega
      simp only [if_neg h8f, if_neg h16f, if_pos h24t]
    · rw [if_neg h2, h i hi]
      unfold encodeIdx
      by_cases h8t : i < 8
      · simp only [if_pos h8t]
      · have h16t : i < 16 := by omega
        simp only [if_neg h8t, if_pos h16t]

theorem indexOK_set_head (q q' : BigQueue)
    (hidx : q'.index = set_indexWord (set_indexWord q.index 0 q'.head_aid) 1 q'.head_offset)
    (hta : q'.tail_aid = q.tail_aid) (hto : q'.tail_offset = q.tail_offset)
    (h : indexOK q) : indexOK q' := by
  intro i hi
  rw [hidx, hta, hto]
  unfold set_indexWord
  by_cases h1 : 1 * 8 ≤ i ∧ i < 1 * 8 + 8
  · rw [if_pos h1]
    unfold encodeIdx
    have h8f : ¬ i < 8 := by omega
    have h16t : i < 16 := by omega
    simp only [if_neg h8f, if_pos h16t]
  · rw [if_neg h1]
    by_cases h0 : 0 * 8 ≤ i ∧ i < 0 * 8 + 8
    · rw [if_pos h0]
      unfold encodeIdx
      have h8t : i < 8 := by omega
      simp only [if_pos h8t]
      congr 1 <;> omega
    · rw [if_neg h0, h i hi]
      unfold encodeIdx
      have h8f : ¬ i < 8 := by omega
      have h16f : ¬ i < 16 := by omega
      simp only [if_neg h8f, if_neg h16f]
theorem stepOp_indexOK (op : Op) (q : BigQueue) (o : OpOut) (q' : BigQueue)
    (h8 : 8 < q.config.arena_size) (hh : q.head_offset < q.config.arena_size)
    (ht : q.tail_offset < q.config.arena_size)
    (hI : indexOK q) (h : stepOp op q = some (o, q')) : indexOK q' := by
  cases op with
  | push bs =>
    obtain ⟨qp, hp, hcfg, hha, hho, htl, hidx⟩ := pushQ_shape q bs h8 ht
    simp only [stepOp] at h
    rw [hp] at h
    dsimp only at h
    injection h with h'
    injection h' with ho2 hq
    subst hq
    exact indexOK_set_tail q _ hidx hha hho hI
  | pop =>
    simp only [stepOp] at h
    cases hp : popQ q with
    | none =>
      rw [hp] at h
      exact absurd h (by simp)
    | some r =>
      rw [hp] at h
      obtain ⟨rr, qq⟩ := r
      rcases popQ_shape q h8 hh rr qq hp with ⟨hre, hqq⟩ | ⟨d, hrd, hcfg, hta, hto, hhb, hidx⟩
      · subst hre
        subst hqq
        dsimp only at h
        injection h with h'
        injection h' with ho2 hq
        subst hq
        exact hI
      · subst hrd
        dsimp only at h
        injection h with h'
        injection h' with ho2 hq
        subst hq
        exact indexOK_set_head q _ hidx hta hto hI
  | peek =>
    simp only [stepOp] at h
    cases hp : peekQ q with
    | none =>
      rw [hp] at h
      exact absurd h (by simp)
    | some r =>
      rw [hp] at h
      obtain ⟨rr, qq⟩ := r
      rcases peekQ_shape q h8 hh rr qq hp with ⟨hre, hqq⟩ | ⟨d, c, hrd, hqq⟩
      · subst hre
        subst hqq
        dsimp only at h
        injection h with h'
        injection h' with ho2 hq
        subst hq
        exact hI
      · subst hrd
        subst hqq
        dsimp only at h
        injection h with h'
        injection h' with ho2 hq
        subst hq
        exact hI
  | dequeue =>
    simp only [stepOp] at h
    cases hp : dequeueQ q with
    | none =>
      rw [hp] at h
      exact absurd h (by simp)
    | some r =>
      rw [hp] at h
      obtain ⟨rr, qq⟩ := r
      rcases dequeueQ_shape q h8 hh rr qq hp with ⟨hre, hqq⟩ | ⟨hrd, hcfg, hta, hto, hhb, hidx⟩
      · subst hre
        subst hqq
        dsimp only at h
        injection h with h'
        injection h' with ho2 hq
        subst hq
        exact hI
      · subst hrd
        dsimp only at h
        injection h with h'
        injection h' with ho2 hq
        subst hq
        exact indexOK_set_head q _ hidx hta hto hI

theorem runTrace_indexOK (ops : List Op) : ∀ (q : BigQueue),
    8 < q.config.arena_size → q.head_offset < q.config.arena_size →
    q.tail_offset < q.config.arena_size → indexOK q →
    ∀ r qf, runTrace q ops = some (r, qf) → indexOK qf := by
  induction ops with
  | nil =>
    intro q h8 hh ht hI r qf h
    simp only [runTrace] at h
    injection h with h'
    injection h' with hr hq
    subst hq
    exact hI
  | cons op ops ih =>
    intro q h8 hh ht hI r qf h
    simp only [runTrace] at h
    cases hs : stepOp op q with
    | none =>
      rw [hs] at h
      exact absurd h (by simp)
    | some p =>
      rw [hs] at h
      obtain ⟨o, q1⟩ := p
      dsimp only at h
      obtain ⟨hcfg, hh1, ht1⟩ := stepOp_inv op q o q1 h8 hh ht hs
      have hI1 := stepOp_indexOK op q o q1 h8 hh ht hI hs
      have hasz : q1.config.arena_size = q.config.arena_size := by rw [hcfg]
      cases hr : runTrace q1 ops with
      | none =>
        rw [hr] at h
        exact absurd h (by simp)
      | some r2 =>
        rw [hr] at h
        obtain ⟨os, q2⟩ := r2
        have hi := ih q1 (by rw [hasz]; exact h8) (by rw [hasz]; exact hh1)
          (by rw [hasz]; exact ht1) hI1 os q2 hr
        dsimp only [Option.map] at h
        injection h with h'
        injection h' with hr2 hq
        subst hq
        exact hi

/-! ### Helper facts for the claim theorems -/

theorem indexOK_reset (conf : Config) : indexOK (with_config_reset conf) := by
  intro i hi
  show (0 : Nat) = encodeIdx 0 0 0 0 i
  unfold encodeIdx
  split_ifs <;> simp [leByte]

theorem validQ_qC4 : validQ qC4 [[5, 6, 7]] := by
  refine ⟨?_, ?_, ?_, ?_, ?_, ⟨?_, ?_⟩, ?_⟩ <;> first | decide | (unfold chain; decide)

theorem shrinkEntry_keep_nodat (haid taid : Nat) (p : List Char)
    (h : ¬ dotDat.isSuffixOf p = true) : shrinkEntry haid taid p = some false := by
  unfold shrinkEntry
  rw [if_neg h]

theorem shrinkEntry_keep_no2 (haid taid : Nat) (p : List Char)
    (h : (splitOnChar '_' p).length ≠ 2) : shrinkEntry haid taid p = some false := by
  unfold shrinkEntry
  by_cases hd : dotDat.isSuffixOf p = true
  · rw [if_pos hd, if_neg h]
  · rw [if_neg hd]

theorem shrinkEntry_parsed (haid taid : Nat) (hht : haid ≤ taid) (p : List Char) (n : Nat)
    (hd : dotDat.isSuffixOf p = true) (h2 : (splitOnChar '_' p).length = 2)
    (hp : arenaNo p = some n) :
    shrinkEntry haid taid p = some (decide (n < haid)) := by
  unfold arenaNo at hp
  simp only [shrinkEntry]
  rw [if_pos hd, if_pos h2, hp]
  dsimp only
  congr 1
  exact decide_eq_decide.mpr (by omega)

/-! ### The claim theorems -/

/-- C1: FIFO round-trip.  From a queue opened with reset (any arena size
greater than 8), pushing the payloads `ps` in order and then popping
`ps.length` times succeeds and returns exactly `ps`, in order and
byte-identical — including payloads that straddle arena boundaries. -/
theorem C1_fifo_roundtrip (conf : Config) (ps : List (List Nat))
    (h8 : 8 < conf.arena_size) (hlen : ∀ p, p ∈ ps → p.length < 2 ^ 64) :
    ∃ q1 q2, pushAll (with_config_reset conf) ps = some q1 ∧
      popAll q1 ps.length = some (ps, q2) := by
  obtain ⟨q1, he, hv⟩ := pushAll_spec ps [] (with_config_reset conf) (validQ_reset conf h8) hlen
  obtain ⟨q2, he2, _⟩ := popAll_spec ps q1 (by simpa using hv)
  exact ⟨q1, q2, he, he2⟩

theorem C1_fifo_roundtrip_witness :
    8 < (Config.mk 10 3).arena_size ∧
    (∀ p, p ∈ [List.range 12, [7, 8]] → p.length < 2 ^ 64) ∧
    ∃ q1 q2,
      pushAll (with_config_reset (Config.mk 10 3)) [List.range 12, [7, 8]] = some q1 ∧
      popAll q1 ([List.range 12, [7, 8]] : List (List Nat)).length =
        some ([List.range 12, [7, 8]], q2) :=
  ⟨by decide, by decide,
    C1_fifo_roundtrip (Config.mk 10 3) [List.range 12, [7, 8]] (by decide) (by decide)⟩

/-- C2: refuted — `dequeue` does not agree with `pop` on head advancement.
On a reset queue with arena size 10, after pushing one 12-byte payload
(which spans two arena boundaries), `pop` leaves the head cursor at
`(2, 0)` but `dequeue` returns `Ok` with the head cursor at `(1, 0)`:
`dequeue` flips at most one head page however long the payload is. -/
theorem C2_dequeue_pop_head_mismatch :
    (pushAll (with_config_reset (Config.mk 10 3)) [List.range 12]).map (fun q1 =>
      ((popQ q1).map fun r => (exceptOk r.1, r.2.head_aid, r.2.head_offset),
       (dequeueQ q1).map fun r => (exceptOk r.1, r.2.head_aid, r.2.head_offset))) =
    some (some (true, 2, 0), some (true, 1, 0)) := by decide

/-- C3: the length frame is never split across arenas.  For any state with
`tail_offset < arena_size` (and `arena_size > 8`), `write_length` returns the
`afterLen` cursor; when fewer than 8 bytes remain in the tail arena the tail
first rolls to the fresh arena `tail_aid + 1` and the 8 length bytes land
contiguously at its offsets `0..8`; when the length word ends exactly at
`arena_size` it is written in place and the tail then flips forward, the
returned offset being 0. -/
theorem C3_length_never_split (q : BigQueue) (L : Nat)
    (h8 : 8 < q.config.arena_size) (ht : q.tail_offset < q.config.arena_size) :
    ∃ q',
      write_length q q.tail_offset L =
        ((afterLen q.config.arena_size (q.tail_aid, q.tail_offset)).2, q') ∧
      q'.tail_aid = (afterLen q.config.arena_size (q.tail_aid, q.tail_offset)).1 ∧
      (q.config.arena_size - q.tail_offset < 8 →
        afterLen q.config.arena_size (q.tail_aid, q.tail_offset) = (q.tail_aid + 1, 8) ∧
        ∀ j, j < 8 → q'.store (q.tail_aid + 1) j = leByte L j) ∧
      (q.tail_offset + 8 = q.config.arena_size →
        afterLen q.config.arena_size (q.tail_aid, q.tail_offset) = (q.tail_aid + 1, 0) ∧
        ∀ j, j < 8 → q'.store q.tail_aid (q.tail_offset + j) = leByte L j) := by
  obtain ⟨q', he, hcfg, hidx, hha, hho, hto, hta, hf1, hf2, hlen, hfr⟩ :=
    write_length_spec q q.tail_offset L h8 ht
  refine ⟨q', he, hta, ?_, ?_⟩
  · intro hs
    have hgt : q.tail_offset + 8 > q.config.arena_size := by omega
    have hAL : afterLen q.config.arena_size (q.tail_aid, q.tail_offset) =
        (q.tail_aid + 1, 8) := by
      unfold afterLen
      dsimp only
      rw [if_pos hgt]
    have hLP : lenPos q.config.arena_size (q.tail_aid, q.tail_offset) =
        (q.tail_aid + 1, 0) := by
      unfold lenPos
      dsimp only
      rw [if_pos hgt]
    refine ⟨hAL, fun j hj => ?_⟩
    have hb := hlen j hj
    rw [hLP] at hb
    dsimp only at hb
    rwa [Nat.zero_add] at hb
  · intro hfit
    have hngt : ¬ q.tail_offset + 8 > q.config.arena_size := by omega
    have hAL : afterLen q.config.arena_size (q.tail_aid, q.tail_offset) =
        (q.tail_aid + 1, 0) := by
      unfold afterLen
      dsimp only
      rw [if_neg hngt, if_pos hfit]
    have hLP : lenPos q.config.arena_size (q.tail_aid, q.tail_offset) =
        (q.tail_aid, q.tail_offset) := by
      unfold lenPos
      dsimp only
      rw [if_neg hngt]
    refine ⟨hAL, fun j hj => ?_⟩
    have hb := hlen j hj
    rw [hLP] at hb
    exact hb

theorem C3_witness :
    8 < qC3.config.arena_size ∧ qC3.tail_offset < qC3.config.arena_size ∧
    ∃ q',
      write_length qC3 qC3.tail_offset 300 =
        ((afterLen qC3.config.arena_size (qC3.tail_aid, qC3.tail_offset)).2, q') ∧
      q'.tail_aid = (afterLen qC3.config.arena_size (qC3.tail_aid, qC3.tail_offset)).1 ∧
      (qC3.config.arena_size - qC3.tail_offset < 8 →
        afterLen qC3.config.arena_size (qC3.tail_aid, qC3.tail_offset) = (qC3.tail_aid + 1, 8) ∧
        ∀ j, j < 8 → q'.store (qC3.tail_aid + 1) j = leByte 300 j) ∧
      (qC3.tail_offset + 8 = qC3.config.arena_size →
        afterLen qC3.config.arena_size (qC3.tail_aid, qC3.tail_offset) = (qC3.tail_aid + 1, 0) ∧
        ∀ j, j < 8 → q'.store qC3.tail_aid (qC3.tail_offset + j) = leByte 300 j) :=
  ⟨by decide, by decide, C3_length_never_split qC3 300 (by decide) (by decide)⟩

/-- C4: peek is non-destructive and idempotent.  On a wellformed non-empty
queue whose front payload is `pl`, `peek` returns `pl` and the state differs
from the input at most in the LRU cache (head cursor and index bytes
unchanged); `k` consecutive peeks all return `pl`, and `pop` then returns the
same bytes. -/
theorem C4_peek_nondestructive (q : BigQueue) (pl : List Nat) (ps : List (List Nat)) (k : Nat)
    (hv : validQ q (pl :: ps)) :
    (∃ c', peekQ q = some (.ok pl, { q with cache := c' })) ∧
    peekRepeat q k = some (List.replicate k pl) ∧
    ∃ q', popQ q = some (.ok pl, q') := by
  refine ⟨peekQ_spec q pl ps hv, peekRepeat_spec pl k q ps hv, ?_⟩
  obtain ⟨q', he, _⟩ := popQ_spec q pl ps hv
  exact ⟨q', he⟩

theorem C4_witness :
    validQ qC4 [[5, 6, 7]] ∧
    ((∃ c', peekQ qC4 = some (.ok [5, 6, 7], { qC4 with cache := c' })) ∧
     peekRepeat qC4 2 = some (List.replicate 2 [5, 6, 7]) ∧
     ∃ q', popQ qC4 = some (.ok [5, 6, 7], q')) :=
  ⟨validQ_qC4, C4_peek_nondestructive qC4 [5, 6, 7] [] 2 validQ_qC4⟩

/-- C6: the index mirrors the cursors.  Starting from a reset queue, after
every completed sequence of public operations the final state satisfies
`indexOK`: bytes 0..32 of `index.dat` are the little-endian encoding of
`(head_aid, head_offset, tail_aid, tail_offset)` (push re-persists the tail
words, pop and dequeue the head words, peek leaves both as they were). -/
theorem C6_index_mirror (conf : Config) (ops : List Op) (r : List OpOut) (qf : BigQueue)
    (h8 : 8 < conf.arena_size)
    (h : runTrace (with_config_reset conf) ops = some (r, qf)) : indexOK qf :=
  runTrace_indexOK ops (with_config_reset conf) h8
    (show 0 < conf.arena_size by omega) (show 0 < conf.arena_size by omega)
    (indexOK_reset conf) r qf h

theorem C6_witness :
    8 < (Config.mk 16 3).arena_size ∧
    ((runTrace (with_config_reset (Config.mk 16 3)) [Op.push [1, 2, 3], Op.pop]).elim False
      fun p => indexOK p.2) := by
  refine ⟨by decide, ?_⟩
  have hs : (runTrace (with_config_reset (Config.mk 16 3))
      [Op.push [1, 2, 3], Op.pop]).isSome = true := by decide
  cases hw : runTrace (with_config_reset (Config.mk 16 3)) [Op.push [1, 2, 3], Op.pop] with
  | none => rw [hw] at hs; exact Bool.noConfusion hs
  | some p =>
    dsimp only [Option.elim]
    exact C6_index_mirror (Config.mk 16 3) [Op.push [1, 2, 3], Op.pop] p.1 p.2
      (by decide) (by rw [hw])

/-- C7: offset bound invariant.  Starting from a reset queue with
`arena_size > 8`, after every completed sequence of public operations both
`head_offset < arena_size` and `tail_offset < arena_size` hold of the final
state (a frame ending exactly at an arena boundary leaves the offset at 0 of
the next arena). -/
theorem C7_offset_bound (conf : Config) (ops : List Op) (r : List OpOut) (qf : BigQueue)
    (h8 : 8 < conf.arena_size)
    (h : runTrace (with_config_reset conf) ops = some (r, qf)) :
    qf.head_offset < conf.arena_size ∧ qf.tail_offset < conf.arena_size := by
  have hi := runTrace_inv ops (with_config_reset conf) h8
    (show 0 < conf.arena_size by omega) (show 0 < conf.arena_size by omega) r qf h
  exact ⟨hi.2.1, hi.2.2⟩

theorem C7_witness :
    8 < (Config.mk 16 3).arena_size ∧
    ((runTrace (with_config_reset (Config.mk 16 3)) [Op.push [1, 2, 3], Op.pop]).elim False
      fun p => p.2.head_offset < (Config.mk 16 3).arena_size ∧
        p.2.tail_offset < (Config.mk 16 3).arena_size) := by
  refine ⟨by decide, ?_⟩
  have hs : (runTrace (with_config_reset (Config.mk 16 3))
      [Op.push [1, 2, 3], Op.pop]).isSome = true := by decide
  cases hw : runTrace (with_config_reset (Config.mk 16 3)) [Op.push [1, 2, 3], Op.pop] with
  | none => rw [hw] at hs; exact Bool.noConfusion hs
  | some p =>
    dsimp only [Option.elim]
    exact C7_offset_bound (Config.mk 16 3) [Op.push [1, 2, 3], Op.pop] p.1 p.2
      (by decide) (by rw [hw])

/-- C8 (amended): shrink deletes exactly the low arenas it can parse.  For
`head_aid ≤ tail_aid` and a directory whose `.dat` entries with a two-part
`'_'`-split all parse to an arena number (true whenever the directory path
itself contains no underscore), `shrink` completes: no surviving `.dat` entry
parses to a number below `head_aid`, and every entry that is not such a
low-numbered arena file — `index.dat`, arenas at or above `head_aid` —
survives untouched. -/
theorem C8_shrink_deletes_low (haid taid : Nat) (hht : haid ≤ taid) :
    ∀ ps : List (List Char),
      (∀ p, p ∈ ps → dotDat.isSuffixOf p = true → (splitOnChar '_' p).length = 2 →
        (arenaNo p).isSome = true) →
      ∃ kept, shrinkFiles haid taid ps = some kept ∧
        (∀ p, p ∈ kept → dotDat.isSuffixOf p = true → (splitOnChar '_' p).length = 2 →
          ¬ (arenaNo p).getD 0 < haid) ∧
        (∀ p, p ∈ ps →
          (dotDat.isSuffixOf p = true → (splitOnChar '_' p).length = 2 →
            ¬ (arenaNo p).getD 0 < haid) → p ∈ kept) := by
  intro ps
  induction ps with
  | nil =>
    intro _
    exact ⟨[], rfl, by simp, by simp⟩
  | cons p ps ih =>
    intro hp
    obtain ⟨kept, hk, hA, hB⟩ := ih fun x hx => hp x (List.mem_cons_of_mem p hx)
    by_cases hd : dotDat.isSuffixOf p = true
    · by_cases h2 : (splitOnChar '_' p).length = 2
      · have hsome := hp p (List.mem_cons_self p ps) hd h2
        obtain ⟨n, hn⟩ := Option.isSome_iff_exists.mp hsome
        have he := shrinkEntry_parsed haid taid hht p n hd h2 hn
        by_cases hlt : n < haid
        · refine ⟨kept, ?_, hA, ?_⟩
          · simp only [shrinkFiles]
            rw [he, decide_eq_true hlt]
            exact hk
          · intro x hx hkeep
            rcases List.mem_cons.mp hx with hxp | hxs
            · subst hxp
              exact absurd hlt (by simpa [hn] using hkeep hd h2)
            · exact hB x hxs hkeep
        · refine ⟨p :: kept, ?_, ?_, ?_⟩
          · simp only [shrinkFiles]
            rw [he, decide_eq_false hlt, hk]
            rfl
          · intro x hx hxd hx2
            rcases List.mem_cons.mp hx with hxp | hxs
            · subst hxp
              simpa [hn] using hlt
            · exact hA x hxs hxd hx2
          · intro x hx hkeep
            rcases List.mem_cons.mp hx with hxp | hxs
            · subst hxp
              exact List.mem_cons_self _ _
            · exact List.mem_cons_of_mem _ (hB x hxs hkeep)
      · have he := shrinkEntry_keep_no2 haid taid p h2
        refine ⟨p :: kept, ?_, ?_, ?_⟩
        · simp only [shrinkFiles]
          rw [he, hk]
          rfl
        · intro x hx hxd hx2
          rcases List.mem_cons.mp hx with hxp | hxs
          · subst hxp
            exact absurd hx2 h2
          · exact hA x hxs hxd hx2
        · intro x hx hkeep
          rcases List.mem_cons.mp hx with hxp | hxs
          · subst hxp
            exact List.mem_cons_self _ _
          · exact List.mem_cons_of_mem _ (hB x hxs hkeep)
    · have he := shrinkEntry_keep_nodat haid taid p hd
      refine ⟨p :: kept, ?_, ?_, ?_⟩
      · simp only [shrinkFiles]
        rw [he, hk]
        rfl
      · intro x hx hxd hx2
        rcases List.mem_cons.mp hx with hxp | hxs
        · subst hxp
          exact absurd hxd hd
        · exact hA x hxs hxd hx2
      · intro x hx hkeep
        rcases List.mem_cons.mp hx with hxp | hxs
        · subst hxp
          exact List.mem_cons_self _ _
        · exact List.mem_cons_of_mem _ (hB x hxs hkeep)

theorem C8_shrink_witness :
    (1 ≤ 1) ∧
    (∀ p, p ∈ psC8 → dotDat.isSuffixOf p = true → (splitOnChar '_' p).length = 2 →
      (arenaNo p).isSome = true) ∧
    ∃ kept, shrinkFiles 1 1 psC8 = some kept ∧
      (∀ p, p ∈ kept → dotDat.isSuffixOf p = true → (splitOnChar '_' p).length = 2 →
        ¬ (arenaNo p).getD 0 < 1) ∧
      (∀ p, p ∈ psC8 →
        (dotDat.isSuffixOf p = true → (splitOnChar '_' p).length = 2 →
          ¬ (arenaNo p).getD 0 < 1) → p ∈ kept) :=
  ⟨by decide, by decide, C8_shrink_deletes_low 1 1 (by decide) psC8 (by decide)⟩

/-- C8, original claim refuted: a directory path with an underscore defeats
`shrink`.  With the directory `/tmp/my_q`, the full path of `arena_0.dat`
splits on `'_'` into three parts, so the entry is skipped and survives even
though its arena number 0 is below `head_aid = 1`. -/
theorem C8_counterexample :
    shrinkFiles 1 1 [String.toList "/tmp/my_q/arena_0.dat"] =
      some [String.toList "/tmp/my_q/arena_0.dat"] ∧
    dotDat.isSuffixOf (String.toList "/tmp/my_q/arena_0.dat") = true ∧
    (splitOnChar '_' (String.toList "/tmp/my_q/arena_0.dat")).length = 3 := by
  refine ⟨?_, ?_, ?_⟩ <;> decide

/-- C9: refuted — a failed head flip is not fatal.  In the state `s9` the
head must flip to arena 1, which is neither on disk nor cached, so
`flip_head_page_to` fails; yet `read_length` ignores that `Result` and
continues reading at offset 0 of the stale arena 0, and `dequeue` returns
`Ok` with the head left at `(0, 8)`. -/
theorem C9_failed_flip_not_fatal :
    flip_head_page_to s9 (s9.head_aid + 1) = none ∧
    (read_lengthQ s9).1 = some 0 ∧
    (read_lengthQ s9).2.head_aid = s9.head_aid ∧
    (read_lengthQ s9).2.head_offset = 8 ∧
    (dequeueQ s9).map (fun r => (exceptOk r.1, r.2.head_aid, r.2.head_offset)) =
      some (true, 0, 8) :=
  ⟨rfl, rfl, rfl, rfl, rfl⟩

/-- C10: `max_arenas_in_mem` is dead.  Two reset queues whose configurations
differ only in `max_arenas_in_mem` have LRU capacity 3 (the literal in
`with_config`), agree on every field `mamEq` compares, and every sequence of
public operations behaves identically on the two (same outcomes, and final
states again equal up to the dead field). -/
theorem C10_max_arenas_unused (asz m1 m2 : Nat) (ops : List Op) :
    (with_config_reset (Config.mk asz m1)).cache_cap = 3 ∧
    mamEq (with_config_reset (Config.mk asz m1)) (with_config_reset (Config.mk asz m2)) ∧
    mamEqT (runTrace (with_config_reset (Config.mk asz m1)) ops)
      (runTrace (with_config_reset (Config.mk asz m2)) ops) :=
  ⟨rfl, ⟨rfl, rfl, rfl, rfl, rfl, rfl, rfl, rfl, rfl, rfl⟩,
    runTrace_mamEq ops _ _ ⟨rfl, rfl, rfl, rfl, rfl, rfl, rfl, rfl, rfl, rfl⟩⟩


end BQ
